import Mathlib

/-!
# Commit-log storage primitives: record store and offset index

A shallow embedding of `sample-api/internal/log/sotre.go` and
`sample-api/internal/log/index.go`.

* Bytes are `Fin 256`; `uint32`/`uint64` values are natural numbers reduced
  `% 2^32` / `% 2^64` wherever the Go code can wrap or truncate.
* A Go multi-value return `(a, b, err)` is a Lean tuple whose last component
  is `Option Error` (`none` is Go's `nil` error).
* A run-time panic (slice bounds, `make` with a length outside `int`) is the
  distinguished error value `Error.panic`: the call does not return normally.
* The operating-system file under the store is an open handle: the bytes
  before and from the offset at which the next `write` lands, together with a
  script that says which of the forthcoming `write` calls fail. A write
  overwrites the bytes at the offset and extends the file when it runs past
  its end; a handle opened with `O_APPEND`, and a fresh empty file, write at
  the end. An offset beyond the end of the file is not modelled.
* Reads from the file fail only by a negative offset or by reaching its end.
* `bufio.Writer` is modelled after the Go standard library with its default
  buffer size of 4096 bytes and its sticky error.
* The index is its mapped region and its size; the region is shared with the
  backing file, whose bytes after `Close` are what `index.Close` returns.
-/

namespace CommitLog

/-! ## Machine integers and bytes -/

abbrev Byte := Fin 256

/-- Conversion `uint64(x)` of a non-negative value: reduction modulo `2^64`. -/
def toUint64 (x : Nat) : Nat := x % 2 ^ 64

/-- Conversion `int64(x)` of a `uint64` value (two's complement). -/
def toInt64 (x : Nat) : Int :=
  if x % 2 ^ 64 < 2 ^ 63 then ((x % 2 ^ 64 : Nat) : Int) else ((x % 2 ^ 64 : Nat) : Int) - 2 ^ 64

/-- Conversion `uint32(x)` of an `int64` value: reduction modulo `2^32`. -/
def toUint32 (x : Int) : Nat := (x % 2 ^ 32).toNat

inductive Error where
  | EOF            -- io.EOF
  | ErrShortWrite  -- io.ErrShortWrite
  | writeFailed    -- an error reported by the operating system on write
  | negativeOffset -- os.File.ReadAt with a negative offset
  | EINVAL         -- invalid argument (truncate to a negative length, empty mapping)
  | panic          -- run-time panic: the call does not return
  deriving DecidableEq, Repr

/-! ## `encoding/binary`, big endian (`enc`) -/

/-- `enc.PutUint32`: the four big-endian bytes of `v`. -/
def putUint32 (v : Nat) : List Byte :=
  [Fin.ofNat (v / 2 ^ 24), Fin.ofNat (v / 2 ^ 16), Fin.ofNat (v / 2 ^ 8), Fin.ofNat v]

/-- `enc.PutUint64`: the eight big-endian bytes of `v`. -/
def putUint64 (v : Nat) : List Byte :=
  [Fin.ofNat (v / 2 ^ 56), Fin.ofNat (v / 2 ^ 48), Fin.ofNat (v / 2 ^ 40), Fin.ofNat (v / 2 ^ 32),
   Fin.ofNat (v / 2 ^ 24), Fin.ofNat (v / 2 ^ 16), Fin.ofNat (v / 2 ^ 8), Fin.ofNat v]

/-- `enc.Uint32` on a slice of at least four bytes. -/
def uint32 (b : List Byte) : Nat :=
  (b.getD 0 0).val * 2 ^ 24 + (b.getD 1 0).val * 2 ^ 16 + (b.getD 2 0).val * 2 ^ 8 + (b.getD 3 0).val

/-- `enc.Uint64` on a slice of at least eight bytes. -/
def uint64 (b : List Byte) : Nat :=
  (b.getD 0 0).val * 2 ^ 56 + (b.getD 1 0).val * 2 ^ 48 + (b.getD 2 0).val * 2 ^ 40
    + (b.getD 3 0).val * 2 ^ 32 + (b.getD 4 0).val * 2 ^ 24 + (b.getD 5 0).val * 2 ^ 16
    + (b.getD 6 0).val * 2 ^ 8 + (b.getD 7 0).val

/-! ## The file under the store -/

/-- An open file handle: `before` are the bytes of the file before the offset
at which the next `write` lands, `after` the bytes from that offset on (none
for a handle opened with `O_APPEND`, for an empty file, and whenever the
offset is at the end of the file); `script` says for each forthcoming `write`
call whether it succeeds (`none`) or fails after writing at most `k` bytes
(`some k`). An exhausted script means every further write succeeds. -/
structure File where
  before : List Byte
  after : List Byte
  script : List (Option Nat)
  deriving DecidableEq, Repr

/-- The bytes of the file. -/
def File.data (f : File) : List Byte := f.before ++ f.after

/-- The handle after the bytes `w` went to the file at its offset: they replace
the bytes that were there, the file grows when they run past its end, and the
offset moves behind them. -/
def File.put (f : File) (w : List Byte) (rest : List (Option Nat)) : File :=
  { before := f.before ++ w, after := f.after.drop w.length, script := rest }

/-- `os.File.Write`: returns the number of bytes written and the error. -/
def File.Write (f : File) (b : List Byte) : (Nat × Option Error) × File :=
  match f.script with
  | [] => ((b.length, none), f.put b [])
  | none :: rest => ((b.length, none), f.put b rest)
  | some k :: rest =>
    ((min k b.length, some Error.writeFailed), f.put (b.take (min k b.length)) rest)

/-- `os.File.ReadAt(b, off)` with `len(b) = n`: the bytes read and the error.
A negative offset is an error; an empty destination reads nothing; a read that
reaches the end of the file before `n` bytes returns `io.EOF`. -/
def File.ReadAt (f : File) (n : Nat) (off : Int) : List Byte × Option Error :=
  if off < 0 then ([], some Error.negativeOffset)
  else if n = 0 then ([], none)
  else
    let got := (f.data.drop off.toNat).take n
    if got.length < n then (got, some Error.EOF) else (got, none)

/-! ## `bufio.Writer` -/

def defaultBufSize : Nat := 4096

/-- The writer state: `buf` is `b.buf[0:b.n]`, `err` the sticky error. -/
structure Writer where
  buf : List Byte
  err : Option Error
  deriving DecidableEq, Repr

/-- `bufio.NewWriter`. -/
def NewWriter : Writer := { buf := [], err := none }

def Writer.Available (b : Writer) : Nat := defaultBufSize - b.buf.length

def Writer.Buffered (b : Writer) : Nat := b.buf.length

/-- `(*bufio.Writer).Flush`. -/
def Writer.Flush (b : Writer) (f : File) : Option Error × Writer × File :=
  match b.err with
  | some e => (some e, b, f)
  | none =>
    if b.buf.length = 0 then (none, b, f)
    else
      let r := f.Write b.buf
      let n := r.1.1
      let err := if n < b.buf.length ∧ r.1.2 = none then some Error.ErrShortWrite else r.1.2
      match err with
      | some e => (some e, { buf := b.buf.drop n, err := some e }, r.2)
      | none => (none, { buf := [], err := none }, r.2)

/-- The `for len(p) > b.Available() && b.err == nil` loop of
`(*bufio.Writer).Write`; returns the writer, the file, the rest of `p` and the
count `nn`. The first argument bounds the number of rounds; the loop leaves
through its condition within two rounds whatever the bound
(`Writer.writeLoop_exit`, `Writer.writeLoop_fuel`). -/
def Writer.writeLoop : Nat → Writer → File → List Byte → Nat → Writer × File × List Byte × Nat
  | 0, b, f, p, nn => (b, f, p, nn)
  | fuel + 1, b, f, p, nn =>
    if p.length > b.Available ∧ b.err = none then
      if b.Buffered = 0 then
        -- large write, empty buffer: write directly from p
        let r := f.Write p
        Writer.writeLoop fuel { b with err := r.1.2 } r.2 (p.drop r.1.1) (nn + r.1.1)
      else
        let n := min b.Available p.length
        let r := ({ b with buf := b.buf ++ p.take n } : Writer).Flush f
        Writer.writeLoop fuel r.2.1 r.2.2 (p.drop n) (nn + n)
    else (b, f, p, nn)

/-- `(*bufio.Writer).Write`. -/
def Writer.Write (b : Writer) (f : File) (p : List Byte) : (Nat × Option Error) × Writer × File :=
  let r := Writer.writeLoop (p.length + 2) b f p 0
  match r.1.err with
  | some e => ((r.2.2.2, some e), r.1, r.2.1)
  | none =>
    let n := min r.1.Available r.2.2.1.length
    ((r.2.2.2 + n, none), { r.1 with buf := r.1.buf ++ r.2.2.1.take n }, r.2.1)

/-- `binary.Write(w, enc, uint64(v))`: the error of writing the eight bytes. -/
def binaryWrite (b : Writer) (f : File) (v : Nat) : Option Error × Writer × File :=
  let r := b.Write f (putUint64 v)
  (r.1.2, r.2)

/-! ## The store (`sotre.go`) -/

def lenWidth : Nat := 8

structure store where
  File : File
  buf : Writer
  size : Nat
  deriving DecidableEq, Repr

/-- `newStore`: the size is the current length of the file (`os.Stat` on the
open file is taken to succeed). The handle is taken as it is: `newStore`
neither moves its offset nor asks for `O_APPEND`. -/
def newStore (f : File) : store :=
  { File := f, size := toUint64 f.data.length, buf := NewWriter }

/-- `(*store).Append`: returns `(n, pos, err)` and the store afterwards. -/
def store.Append (s : store) (p : List Byte) : (Nat × Nat × Option Error) × store :=
  let pos := s.size
  let r1 := binaryWrite s.buf s.File (toUint64 p.length)
  match r1.1 with
  | some e => ((0, 0, some e), { s with buf := r1.2.1, File := r1.2.2 })
  | none =>
    let r2 := r1.2.1.Write r1.2.2 p
    match r2.1.2 with
    | some e => ((0, 0, some e), { s with buf := r2.2.1, File := r2.2.2 })
    | none =>
      let w := r2.1.1 + lenWidth
      ((toUint64 w, pos, none),
        { File := r2.2.2, buf := r2.2.1, size := toUint64 (s.size + toUint64 w) })

/-- `(*store).Read`: returns `(bytes, err)` and the store afterwards.
`make([]byte, len)` is taken to panic when `len` does not fit an `int`; the
smaller limit of the allocator and running out of memory are not modelled. -/
def store.Read (s : store) (pos : Nat) : (List Byte × Option Error) × store :=
  let r := s.buf.Flush s.File
  let s1 : store := { s with buf := r.2.1, File := r.2.2 }
  match r.1 with
  | some e => (([], some e), s1)
  | none =>
    let sz := s1.File.ReadAt lenWidth (toInt64 pos)
    match sz.2 with
    | some e => (([], some e), s1)
    | none =>
      let len := uint64 sz.1
      -- make([]byte, len) panics when len does not fit an int
      if 2 ^ 63 ≤ len then (([], some Error.panic), s1)
      else
        let b := s1.File.ReadAt len (toInt64 (toUint64 (pos + lenWidth)))
        match b.2 with
        | some e => (([], some e), s1)
        | none => ((b.1, none), s1)

/-- `(*store).ReadAt` with `len(p) = n`: returns `(bytes read, err)`. -/
def store.ReadAt (s : store) (n : Nat) (off : Int) : (List Byte × Option Error) × store :=
  let r := s.buf.Flush s.File
  let s1 : store := { s with buf := r.2.1, File := r.2.2 }
  match r.1 with
  | some e => (([], some e), s1)
  | none => (s1.File.ReadAt n off, s1)

/-- `(*store).Close`: flushes; the file is closed when the flush succeeds. -/
def store.Close (s : store) : Option Error × store :=
  let r := s.buf.Flush s.File
  (r.1, { s with buf := r.2.1, File := r.2.2 })

/-- The logical content of the store: file bytes followed by buffered bytes. -/
def store.content (s : store) : List Byte := s.File.data ++ s.buf.buf

/-! ## The index (`index.go`) -/

def offWidth : Nat := 4
def posWidth : Nat := 8
def entWidth : Nat := offWidth + posWidth

structure Segment where
  MaxStoreBytes : Nat
  MaxIndexBytes : Nat
  InitialOffset : Nat
  deriving DecidableEq, Repr

structure Config where
  Segment : Segment
  deriving DecidableEq, Repr

/-- The index: `mmap` is the mapped region (shared with the backing file, so
the file holds the same bytes while the index is open), `size` the populated
byte count. -/
structure index where
  mmap : List Byte
  size : Nat
  deriving DecidableEq, Repr

/-- `os.Truncate(name, n)` on a file with bytes `f`: cut, or extend by zeros. -/
def truncate (f : List Byte) (n : Nat) : List Byte :=
  f.take n ++ List.replicate (n - f.length) 0

/-- The slice expression `m[a:b]`; `none` is the bounds panic. -/
def slice (m : List Byte) (a b : Nat) : Option (List Byte) :=
  if a ≤ b ∧ b ≤ m.length then some ((m.drop a).take (b - a)) else none

/-- Writing `bs` through the slice `m[a : a + len bs]` of the mapped region. -/
def putAt (m : List Byte) (a : Nat) (bs : List Byte) : List Byte :=
  m.take a ++ bs ++ m.drop (a + bs.length)

/-- `newIndex` on a backing file with bytes `f`: the size is the file length,
the file is resized to `MaxIndexBytes` and mapped whole. Truncating to a
length that is negative as `int64`, and mapping an empty file, fail. -/
def newIndex (f : List Byte) (c : Config) : Except Error index :=
  let size := toUint64 f.length
  if toInt64 c.Segment.MaxIndexBytes < 0 then Except.error Error.EINVAL
  else
    let grown := truncate f (toUint64 c.Segment.MaxIndexBytes)
    if grown.length = 0 then Except.error Error.EINVAL
    else Except.ok { mmap := grown, size := size }

/-- `(*index).isMaxed`. -/
def index.isMaxed (i : index) : Bool :=
  decide (toUint64 i.mmap.length < toUint64 (i.size + entWidth))

/-- `(*index).Read`: returns `(out, pos, err)`. -/
def index.Read (i : index) (sel : Int) : Nat × Nat × Option Error :=
  if i.size = 0 then (0, 0, some Error.EOF)
  else
    let out := if sel = -1 then toUint32 (((i.size / entWidth : Nat) : Int) - 1) else toUint32 sel
    let pos := toUint64 (out * entWidth)
    if i.size < toUint64 (pos + entWidth) then (0, 0, some Error.EOF)
    else
      match slice i.mmap pos (toUint64 (pos + offWidth)),
            slice i.mmap (toUint64 (pos + offWidth)) (toUint64 (pos + entWidth)) with
      | some a, some b => (uint32 a, uint64 b, none)
      | _, _ => (0, 0, some Error.panic)

/-- `(*index).Write`: returns the error and the index afterwards. -/
def index.Write (i : index) (off pos : Nat) : Option Error × index :=
  if i.isMaxed then (some Error.EOF, i)
  else
    match slice i.mmap i.size (toUint64 (i.size + offWidth)),
          slice i.mmap (toUint64 (i.size + offWidth)) (toUint64 (i.size + entWidth)) with
    | some _, some _ =>
      let m1 := putAt i.mmap i.size (putUint32 off)
      let m2 := putAt m1 (toUint64 (i.size + offWidth)) (putUint64 pos)
      (none, { mmap := m2, size := toUint64 (i.size + entWidth) })
    | _, _ => (some Error.panic, i)

/-- `(*index).Close`: the bytes of the backing file after the close, which
truncates the file to `size`. -/
def index.Close (i : index) : Except Error (List Byte) :=
  if toInt64 i.size < 0 then Except.error Error.EINVAL
  else Except.ok (truncate i.mmap i.size)

/-! ## Frames and call sequences -/

/-- The frame of a record in the store file: the length, then the payload. -/
def frame (p : List Byte) : List Byte := putUint64 (toUint64 p.length) ++ p

/-- The frames of a sequence of payloads, one after the other. -/
def frames : List (List Byte) → List Byte
  | [] => []
  | p :: ps => frame p ++ frames ps

/-- Appending the payloads in order: the results of the calls, in order, and
the store afterwards. -/
def store.appendAll (s : store) : List (List Byte) → List (Nat × Nat × Option Error) × store
  | [] => ([], s)
  | p :: ps => ((s.Append p).1 :: ((s.Append p).2.appendAll ps).1, ((s.Append p).2.appendAll ps).2)

/-- A call on the store. -/
inductive Call where
  | Append (p : List Byte)
  | Read (pos : Nat)
  | ReadAt (n : Nat) (off : Int)
  deriving DecidableEq, Repr

/-- The store after a call. -/
def store.call (s : store) : Call → store
  | Call.Append p => (s.Append p).2
  | Call.Read pos => (s.Read pos).2
  | Call.ReadAt n off => (s.ReadAt n off).2

/-- The store after a sequence of calls. -/
def store.run (s : store) : List Call → store
  | [] => s
  | c :: cs => (s.call c).run cs

/-- Whether the call is an `Append` that returns an error. -/
def store.appendFails (s : store) : Call → Bool
  | Call.Append p => (s.Append p).1.2.2 != none
  | _ => false

/-- Whether no `Append` of the sequence returns an error. -/
def store.appendsSucceed (s : store) : List Call → Bool
  | [] => true
  | c :: cs => !(s.appendFails c) && (s.call c).appendsSucceed cs

/-- Whether the sequence holds no `Append`. -/
def readsOnly : List Call → Bool
  | [] => true
  | Call.Append _ :: _ => false
  | _ :: cs => readsOnly cs

/-! ## Index entries and write sequences -/

/-- The bytes of one index entry: relative offset, then position. -/
def encodeEntry (e : Nat × Nat) : List Byte := putUint32 e.1 ++ putUint64 e.2

/-- The bytes of a sequence of index entries, one after the other. -/
def encodeEntries : List (Nat × Nat) → List Byte
  | [] => []
  | e :: es => encodeEntry e ++ encodeEntries es

/-- The entry stored at the zero-based entry index `k` of a mapped region. -/
def entryAt (m : List Byte) (k : Nat) : Nat × Nat :=
  (uint32 ((m.drop (12 * k)).take 4), uint64 ((m.drop (12 * k + 4)).take 8))

/-- Writing the entries in order: the errors of the calls, in order, and the
index afterwards. -/
def index.writeAll (i : index) : List (Nat × Nat) → List (Option Error) × index
  | [] => ([], i)
  | e :: es =>
    ((i.Write e.1 e.2).1 :: ((i.Write e.1 e.2).2.writeAll es).1, ((i.Write e.1 e.2).2.writeAll es).2)

/-- A configuration with the given `MaxIndexBytes`. -/
def configOf (maxIndexBytes : Nat) : Config :=
  { Segment := { MaxStoreBytes := 0, MaxIndexBytes := maxIndexBytes, InitialOffset := 0 } }

/-! ## Auxiliary states and inputs of the statements -/

/-- The store after a flush that cannot fail. -/
def store.flushed (s : store) : store :=
  { File := { before := s.content, after := [], script := [] },
    buf := { buf := [], err := none }, size := s.size }

/-- The empty file on which no write fails. -/
def emptyFile : File := { before := [], after := [], script := [] }

/-- The empty file whose first write fails without writing a byte. -/
def faultyFile : File := { before := [], after := [], script := [some 0] }

def hello : List Byte := [104, 101, 108, 108, 111]

def hi : List Byte := [104, 105]

/-- A payload one byte longer than what the write buffer can take after the
eight bytes of the length. -/
def bigPayload : List Byte := List.replicate 4089 0

/-- The entry index that `Read` looks up for a selector. -/
def index.selected (i : index) (sel : Int) : Nat :=
  if sel = -1 then toUint32 (((i.size / entWidth : Nat) : Int) - 1) else toUint32 sel

/-- A region of `cap` bytes that starts with the encoded entries `es` and is
zero after them, with `size` at the end of the entries. -/
def index.filled (cap : Nat) (es : List (Nat × Nat)) : index :=
  { mmap := encodeEntries es ++ List.replicate (cap - 12 * es.length) 0, size := 12 * es.length }

/-- The entries `(0, pos 0), ..., (n, pos n)`. -/
def numbered (n : Nat) (pos : Nat → Nat) : List (Nat × Nat) :=
  (List.range (n + 1)).map (fun k => (k, pos k))

/-- A fresh index of 24 bytes. -/
def freshIndex24 : index := { mmap := List.replicate 24 0, size := 0 }

/-! ## Call sequences on the index -/

/-- A call on the index. -/
inductive IndexCall where
  | Write (off pos : Nat)
  | Read (sel : Int)
  deriving DecidableEq, Repr

/-- The index after a call (`Read` does not change it). -/
def index.call (i : index) : IndexCall → index
  | IndexCall.Write off pos => (i.Write off pos).2
  | IndexCall.Read _ => i

/-- The index after a sequence of calls. -/
def index.run (i : index) : List IndexCall → index
  | [] => i
  | c :: cs => (i.call c).run cs

/-- Whether the call makes a slice access outside the mapped region (a
run-time panic). -/
def index.callPanics (i : index) : IndexCall → Bool
  | IndexCall.Write off pos => decide ((i.Write off pos).1 = some Error.panic)
  | IndexCall.Read sel => decide ((i.Read sel).2.2 = some Error.panic)

/-- Subtraction of `uint64` values: it wraps around. -/
def subUint64 (a b : Nat) : Nat := (a % 2 ^ 64 + 2 ^ 64 - b % 2 ^ 64) % 2 ^ 64

/-- The characterisation of a maxed index in the words of the specification,
`capacity - size < entryWidth`, both operands being unsigned 64-bit values. -/
def index.isMaxedSpec (i : index) : Bool :=
  decide (subUint64 i.mmap.length i.size < entWidth)

/-- A backing file of 36 zero bytes, longer than a capacity of 24. -/
def oversizedFile : List Byte := List.replicate 36 0

/-- A backing file of 5 bytes, not a whole number of entries. -/
def raggedFile : List Byte := List.replicate 5 0

/-- A payload of eight bytes `0xFF`. -/
def ffPayload : List Byte := List.replicate 8 255

/-! ## The in-memory log (`sample-log/internal/server/log.go`) -/

/-- The errors of the in-memory log. -/
inductive LogError where
  | ErrOffSetNotFound
  deriving DecidableEq, Repr

structure Record where
  Value : List Byte
  Offset : Nat
  deriving DecidableEq, Repr

structure Log where
  recoreds : List Record
  deriving DecidableEq, Repr

/-- `NewLog`. -/
def NewLog : Log := { recoreds := [] }

/-- `(*Log).Append`: returns `(offset, err)` and the log afterwards. -/
def Log.Append (c : Log) (recored : Record) : (Nat × Option LogError) × Log :=
  let stamped : Record := { recored with Offset := toUint64 c.recoreds.length }
  ((stamped.Offset, none), { recoreds := c.recoreds ++ [stamped] })

/-- `(*Log).Read`: returns `(record, err)`; `Record{}` is the empty record. -/
def Log.Read (c : Log) (offset : Nat) : Record × Option LogError :=
  if offset ≥ toUint64 c.recoreds.length then
    ({ Value := [], Offset := 0 }, some LogError.ErrOffSetNotFound)
  else (c.recoreds.getD offset { Value := [], Offset := 0 }, none)

/-- Appending the records in order: the results of the calls, in order, and
the log afterwards. -/
def Log.appendAll (c : Log) : List Record → List (Nat × Option LogError) × Log
  | [] => ([], c)
  | r :: rs => ((c.Append r).1 :: ((c.Append r).2.appendAll rs).1, ((c.Append r).2.appendAll rs).2)

/-! ## Further auxiliary definitions -/

/-- What `Read` does once the buffer is flushed, as a function of the bytes of
the file: the two positional reads and the allocation between them. -/
def readRecord (data : List Byte) (pos : Nat) : List Byte × Option Error :=
  let sz := File.ReadAt { before := data, after := [], script := [] } lenWidth (toInt64 pos)
  match sz.2 with
  | some e => ([], some e)
  | none =>
    let len := uint64 sz.1
    if 2 ^ 63 ≤ len then ([], some Error.panic)
    else
      let b := File.ReadAt { before := data, after := [], script := [] } len (toInt64 (toUint64 (pos + lenWidth)))
      match b.2 with
      | some e => ([], some e)
      | none => (b.1, none)

/-- The index that `newIndex` builds on the 36-byte file with a capacity of 24
bytes: the size is the old file length, the mapped region the resized file. -/
def oversizedIndex : index := { mmap := List.replicate 24 0, size := 36 }

/-- A file of 13 bytes holding the record `hello`, opened again without
`O_APPEND`: the offset of the handle is at the start of the file. -/
def reopenedFile : File := { before := [], after := frame hello, script := [] }

/-- The empty file whose first write fails after five bytes. -/
def shortWriteFile : File := { before := [], after := [], script := [some 5] }

/-- The records as the log stores them: the `j`-th one is given the offset
`base + j`. -/
def stamp (base : Nat) : List Record → List Record
  | [] => []
  | r :: rs => { r with Offset := base } :: stamp (base + 1) rs

/-! ## Theorems -/

/-- An empty file has nothing after the offset of its handle. -/
theorem File.after_of_data_nil (f : File) (h : f.data = []) : f.after = [] := by
  unfold File.data at h
  exact (List.append_eq_nil.mp h).2

/-- The count a write returns, wherever the bytes land. -/
theorem File.Write_returns (f : File) (b : List Byte) :
    (f.Write b).1.1 ≤ b.length ∧ ((f.Write b).1.2 = none → (f.Write b).1.1 = b.length) := by
  unfold File.Write
  split <;> simp

/-- A handle that writes at the end of the file still does after a write. -/
theorem File.Write_at_end (f : File) (b : List Byte) (hat : f.after = []) :
    (f.Write b).2.after = [] := by
  unfold File.Write File.put
  split <;> simp [hat]

/-- A write through a handle that writes at the end of the file extends the
file by the bytes written. -/
theorem File.Write_data (f : File) (b : List Byte) (hat : f.after = []) :
    (f.Write b).2.data = f.data ++ b.take (f.Write b).1.1 ∧ (f.Write b).1.1 ≤ b.length
      ∧ ((f.Write b).1.2 = none → (f.Write b).1.1 = b.length) := by
  unfold File.Write File.put File.data
  split <;> simp [hat]

theorem File.Write_script_nil (f : File) (b : List Byte) (h : f.script = [])
    (hat : f.after = []) :
    f.Write b = ((b.length, none), { before := f.data ++ b, after := [], script := [] }) := by
  unfold File.Write File.put File.data
  rw [h, hat]
  simp

/-- A flush keeps the handle writing at the end of the file. -/
theorem Writer.Flush_after (b : Writer) (f : File) (hat : f.after = []) :
    (b.Flush f).2.2.after = [] := by
  have h := File.Write_at_end f b.buf hat
  unfold Writer.Flush
  cases hb : b.err with
  | some e => exact hat
  | none =>
    by_cases hl : b.buf.length = 0
    · simp only [hl, if_true]; exact hat
    · simp only [hl, if_false]
      split <;> exact h

theorem Writer.Flush_content (b : Writer) (f : File) (hat : f.after = []) :
    (b.Flush f).2.2.data ++ (b.Flush f).2.1.buf = f.data ++ b.buf := by
  have h := File.Write_data f b.buf hat
  unfold Writer.Flush
  rcases hfw : f.Write b.buf with ⟨⟨n, e⟩, f1⟩
  rw [hfw] at h
  simp only at h
  cases hb : b.err with
  | some e0 => rfl
  | none =>
    by_cases hl : b.buf.length = 0
    · simp [hl]
    · cases e with
      | some e1 => simp [hl, h.1]
      | none =>
        have h3 := h.2.2 rfl
        simp [hl, h.1, h3]

theorem Writer.Flush_nofault (b : Writer) (f : File) (hs : f.script = []) (he : b.err = none)
    (hat : f.after = []) :
    b.Flush f = (none, { buf := [], err := none },
      { before := f.data ++ b.buf, after := [], script := [] }) := by
  unfold Writer.Flush
  rw [he]
  by_cases hb : b.buf.length = 0
  · have : b.buf = [] := List.length_eq_zero.mp hb
    cases b; cases f; simp_all [File.data]
  · simp [hb, File.Write_script_nil f b.buf hs hat]

/-- What the loop counts, wherever the bytes land: it consumes `k` bytes of
`p` and adds `k` to the count. -/
theorem Writer.writeLoop_count (fuel : Nat) : ∀ (b : Writer) (f : File) (p : List Byte) (nn : Nat),
    ∃ k, k ≤ p.length ∧ (Writer.writeLoop fuel b f p nn).2.2.2 = nn + k
      ∧ (Writer.writeLoop fuel b f p nn).2.2.1 = p.drop k := by
  induction fuel with
  | zero => intro b f p nn; exact ⟨0, by simp [Writer.writeLoop]⟩
  | succ fuel ih =>
    intro b f p nn
    unfold Writer.writeLoop
    by_cases hc : p.length > b.Available ∧ b.err = none
    · rw [if_pos hc]
      by_cases hz : b.Buffered = 0
      · rw [if_pos hz]
        have hw := File.Write_returns f p
        obtain ⟨k, hk, h1, h2⟩ := ih { b with err := (f.Write p).1.2 } (f.Write p).2
          (p.drop (f.Write p).1.1) (nn + (f.Write p).1.1)
        refine ⟨(f.Write p).1.1 + k, ?_, ?_, ?_⟩
        · simp only [List.length_drop] at hk; omega
        · simp only [h1]; omega
        · rw [h2, List.drop_drop]
      · rw [if_neg hz]
        obtain ⟨k, hk, h1, h2⟩ := ih
          (({ b with buf := b.buf ++ p.take (min b.Available p.length) } : Writer).Flush f).2.1
          (({ b with buf := b.buf ++ p.take (min b.Available p.length) } : Writer).Flush f).2.2
          (p.drop (min b.Available p.length)) (nn + min b.Available p.length)
        refine ⟨min b.Available p.length + k, ?_, ?_, ?_⟩
        · simp only [List.length_drop] at hk; omega
        · simp only [h1]; omega
        · rw [h2, List.drop_drop]
    · rw [if_neg hc]
      exact ⟨0, by simp⟩

/-- What the loop does to the bytes when the handle writes at the end of the
file: it consumes `k` bytes of `p`, the file followed by the buffer grows by
exactly those bytes, and the handle still writes at the end. -/
theorem Writer.writeLoop_spec (fuel : Nat) : ∀ (b : Writer) (f : File) (p : List Byte) (nn : Nat),
    f.after = [] →
    ∃ k, k ≤ p.length ∧ (Writer.writeLoop fuel b f p nn).2.2.2 = nn + k
      ∧ (Writer.writeLoop fuel b f p nn).2.2.1 = p.drop k
      ∧ (Writer.writeLoop fuel b f p nn).2.1.data ++ (Writer.writeLoop fuel b f p nn).1.buf
          = f.data ++ b.buf ++ p.take k
      ∧ (Writer.writeLoop fuel b f p nn).2.1.after = [] := by
  induction fuel with
  | zero => intro b f p nn hat; exact ⟨0, by simp [Writer.writeLoop, hat]⟩
  | succ fuel ih =>
    intro b f p nn hat
    unfold Writer.writeLoop
    by_cases hc : p.length > b.Available ∧ b.err = none
    · rw [if_pos hc]
      by_cases hz : b.Buffered = 0
      · rw [if_pos hz]
        have hw := File.Write_data f p hat
        obtain ⟨k, hk, h1, h2, h3, h4⟩ := ih { b with err := (f.Write p).1.2 } (f.Write p).2
          (p.drop (f.Write p).1.1) (nn + (f.Write p).1.1) (File.Write_at_end f p hat)
        have hbuf : b.buf = [] := List.length_eq_zero.mp hz
        refine ⟨(f.Write p).1.1 + k, ?_, ?_, ?_, ?_, h4⟩
        · simp only [List.length_drop] at hk; omega
        · simp only [h1]; omega
        · rw [h2, List.drop_drop]
        · rw [h3, hw.1]; simp [hbuf, List.take_add]
      · rw [if_neg hz]
        have hfl := Writer.Flush_content
          { b with buf := b.buf ++ p.take (min b.Available p.length) } f hat
        obtain ⟨k, hk, h1, h2, h3, h4⟩ := ih
          (({ b with buf := b.buf ++ p.take (min b.Available p.length) } : Writer).Flush f).2.1
          (({ b with buf := b.buf ++ p.take (min b.Available p.length) } : Writer).Flush f).2.2
          (p.drop (min b.Available p.length)) (nn + min b.Available p.length)
          (Writer.Flush_after _ f hat)
        refine ⟨min b.Available p.length + k, ?_, ?_, ?_, ?_, h4⟩
        · simp only [List.length_drop] at hk; omega
        · simp only [h1]; omega
        · rw [h2, List.drop_drop]
        · rw [h3, hfl]; simp [List.take_add]
    · rw [if_neg hc]
      exact ⟨0, by simp [hat]⟩

/-- Once the loop condition is false the loop returns its arguments. -/
theorem Writer.writeLoop_done (fuel : Nat) (b : Writer) (f : File) (p : List Byte) (nn : Nat)
    (h : ¬ (p.length > b.Available ∧ b.err = none)) :
    Writer.writeLoop fuel b f p nn = (b, f, p, nn) := by
  cases fuel with
  | zero => rfl
  | succ fuel => unfold Writer.writeLoop; rw [if_neg h]

/-- With fuel for two rounds the loop has left through its condition. -/
theorem Writer.writeLoop_exit (fuel : Nat) (b : Writer) (f : File) (p : List Byte) (nn : Nat) :
    ¬ ((Writer.writeLoop (fuel + 2) b f p nn).2.2.1.length
          > (Writer.writeLoop (fuel + 2) b f p nn).1.Available
        ∧ (Writer.writeLoop (fuel + 2) b f p nn).1.err = none) := by
  have direct : ∀ (fuel : Nat) (b : Writer) (f : File) (p : List Byte) (nn : Nat),
      b.Buffered = 0 →
      ¬ ((Writer.writeLoop (fuel + 1) b f p nn).2.2.1.length
            > (Writer.writeLoop (fuel + 1) b f p nn).1.Available
          ∧ (Writer.writeLoop (fuel + 1) b f p nn).1.err = none) := by
    intro fuel b f p nn hz
    by_cases hc : p.length > b.Available ∧ b.err = none
    · have hw := File.Write_returns f p
      have hdone : ¬ ((p.drop (f.Write p).1.1).length
          > ({ b with err := (f.Write p).1.2 } : Writer).Available
            ∧ ({ b with err := (f.Write p).1.2 } : Writer).err = none) := by
        rintro ⟨h1, h2⟩
        have := hw.2 h2
        simp [this] at h1
      unfold Writer.writeLoop
      rw [if_pos hc, if_pos hz, Writer.writeLoop_done _ _ _ _ _ hdone]
      exact hdone
    · rw [Writer.writeLoop_done _ _ _ _ _ hc]; exact hc
  by_cases hc : p.length > b.Available ∧ b.err = none
  · by_cases hz : b.Buffered = 0
    · exact direct (fuel + 1) b f p nn hz
    · unfold Writer.writeLoop
      rw [if_pos hc, if_neg hz]
      simp only
      generalize hb1 : ({ b with buf := b.buf ++ p.take (min b.Available p.length) } : Writer) = b1
      have hne : b1.buf.length ≠ 0 := by
        rw [← hb1]; simp only [List.length_append]
        simp only [Writer.Buffered] at hz; omega
      have hb1e : b1.err = none := by rw [← hb1]; exact hc.2
      -- after the flush either the buffer is empty or the error is set
      have hfl : (b1.Flush f).2.1.err ≠ none ∨ (b1.Flush f).2.1.Buffered = 0 := by
        unfold Writer.Flush
        rw [hb1e]
        simp only [hne, if_false]
        split
        · left; simp
        · right; rfl
      rcases hfl with he | hz2
      · have hd : ¬ ((p.drop (min b.Available p.length)).length > (b1.Flush f).2.1.Available
            ∧ (b1.Flush f).2.1.err = none) := fun h => he h.2
        rw [Writer.writeLoop_done _ _ _ _ _ hd]; exact hd
      · exact direct fuel _ _ _ _ hz2
  · rw [Writer.writeLoop_done _ _ _ _ _ hc]; exact hc

/-- One more round of fuel changes nothing once the loop has left through its
condition. -/
theorem Writer.writeLoop_succ (fuel : Nat) : ∀ (b : Writer) (f : File) (p : List Byte) (nn : Nat),
    ¬ ((Writer.writeLoop fuel b f p nn).2.2.1.length > (Writer.writeLoop fuel b f p nn).1.Available
        ∧ (Writer.writeLoop fuel b f p nn).1.err = none) →
      Writer.writeLoop (fuel + 1) b f p nn = Writer.writeLoop fuel b f p nn := by
  induction fuel with
  | zero =>
    intro b f p nn h
    exact Writer.writeLoop_done 1 b f p nn h
  | succ fuel ih =>
    intro b f p nn h
    by_cases hc : p.length > b.Available ∧ b.err = none
    · by_cases hz : b.Buffered = 0
      · rw [Writer.writeLoop, if_pos hc, if_pos hz] at h
        rw [Writer.writeLoop, if_pos hc, if_pos hz, ih _ _ _ _ h]
        conv => rhs; rw [Writer.writeLoop, if_pos hc, if_pos hz]
      · rw [Writer.writeLoop, if_pos hc, if_neg hz] at h
        rw [Writer.writeLoop, if_pos hc, if_neg hz]
        simp only at h ⊢
        rw [ih _ _ _ _ h]
        conv => rhs; rw [Writer.writeLoop, if_pos hc, if_neg hz]
    · rw [Writer.writeLoop_done _ b f p nn hc, Writer.writeLoop_done _ b f p nn hc]

/-- The fuel of the loop is immaterial from two rounds on: the loop of
`Write` always terminates within two rounds. -/
theorem Writer.writeLoop_fuel (fuel : Nat) (b : Writer) (f : File) (p : List Byte) (nn : Nat) :
    Writer.writeLoop (fuel + 2) b f p nn = Writer.writeLoop 2 b f p nn := by
  induction fuel with
  | zero => rfl
  | succ fuel ih =>
    rw [← ih]
    exact Writer.writeLoop_succ (fuel + 2) b f p nn (Writer.writeLoop_exit fuel b f p nn)

theorem Writer.writeLoop_nofault (fuel : Nat) : ∀ (b : Writer) (f : File) (p : List Byte) (nn : Nat),
    f.script = [] → b.err = none → f.after = [] →
      (Writer.writeLoop fuel b f p nn).1.err = none
        ∧ (Writer.writeLoop fuel b f p nn).2.1.script = [] := by
  induction fuel with
  | zero => intro b f p nn hs he _; exact ⟨he, hs⟩
  | succ fuel ih =>
    intro b f p nn hs he hat
    unfold Writer.writeLoop
    by_cases hc : p.length > b.Available ∧ b.err = none
    · rw [if_pos hc]
      by_cases hz : b.Buffered = 0
      · rw [if_pos hz]
        simp only [File.Write_script_nil f p hs hat]
        exact ih _ _ _ _ rfl rfl rfl
      · rw [if_neg hz]
        have hf := Writer.Flush_nofault
          { b with buf := b.buf ++ p.take (min b.Available p.length) } f hs he hat
        simp only [hf]
        exact ih _ _ _ _ rfl rfl rfl
    · rw [if_neg hc]; exact ⟨he, hs⟩

/-- What `Write` counts, wherever the bytes land and whatever the file does:
at most the length of `p`, and a `nil` error means that all of `p` was
taken. -/
theorem Writer.Write_count (b : Writer) (f : File) (p : List Byte) :
    (b.Write f p).1.1 ≤ p.length
      ∧ ((b.Write f p).1.2 = none → (b.Write f p).1.1 = p.length ∧ (b.Write f p).2.1.err = none) := by
  obtain ⟨k, hk, h1, h2⟩ := Writer.writeLoop_count (p.length + 2) b f p 0
  have hx := Writer.writeLoop_exit p.length b f p 0
  unfold Writer.Write
  generalize Writer.writeLoop (p.length + 2) b f p 0 = r at *
  obtain ⟨b1, f1, rest, nn⟩ := r
  simp only at h1 h2 hx ⊢
  subst h1 h2
  cases he : b1.err with
  | some e => simp [hk]
  | none =>
    have hle : (List.drop k p).length ≤ b1.Available := by
      by_contra hn
      exact hx ⟨by omega, he⟩
    have hmin : min b1.Available (List.drop k p).length = (List.drop k p).length := by omega
    simp only [hmin]
    have hlen : 0 + k + (List.drop k p).length = p.length := by
      simp only [List.length_drop]; omega
    exact ⟨by omega, fun _ => ⟨hlen, trivial⟩⟩

/-- A `Write` keeps the handle writing at the end of the file. -/
theorem Writer.Write_after (b : Writer) (f : File) (p : List Byte) (hat : f.after = []) :
    (b.Write f p).2.2.after = [] := by
  obtain ⟨k, -, -, -, -, h4⟩ := Writer.writeLoop_spec (p.length + 2) b f p 0 hat
  unfold Writer.Write
  simp only
  split
  all_goals exact h4

/-- The effect of `Write` on the bytes when the handle writes at the end of
the file, whatever the file does: the file followed by the buffer grows by the
first `nn` bytes of `p`, and a `nil` error means that all of `p` was taken. -/
theorem Writer.Write_spec (b : Writer) (f : File) (p : List Byte) (hat : f.after = []) :
    (b.Write f p).2.2.data ++ (b.Write f p).2.1.buf = f.data ++ b.buf ++ p.take (b.Write f p).1.1
      ∧ (b.Write f p).1.1 ≤ p.length
      ∧ ((b.Write f p).1.2 = none → (b.Write f p).1.1 = p.length ∧ (b.Write f p).2.1.err = none) := by
  obtain ⟨k, hk, h1, h2, h3, -⟩ := Writer.writeLoop_spec (p.length + 2) b f p 0 hat
  have hx := Writer.writeLoop_exit p.length b f p 0
  unfold Writer.Write
  generalize Writer.writeLoop (p.length + 2) b f p 0 = r at *
  obtain ⟨b1, f1, rest, nn⟩ := r
  simp only at h1 h2 h3 hx ⊢
  subst h1 h2
  cases he : b1.err with
  | some e => simp [h3, hk]
  | none =>
    have hle : (List.drop k p).length ≤ b1.Available := by
      by_contra hn
      exact hx ⟨by omega, he⟩
    have hmin : min b1.Available (List.drop k p).length = (List.drop k p).length := by omega
    simp only [hmin, List.take_length]
    have hlen : 0 + k + (List.drop k p).length = p.length := by
      simp only [List.length_drop]; omega
    refine ⟨?_, by omega, fun _ => ⟨hlen, trivial⟩⟩
    rw [hlen, List.take_length, ← List.append_assoc, h3, List.append_assoc, List.take_append_drop]

theorem Writer.Write_nofault (b : Writer) (f : File) (p : List Byte)
    (hs : f.script = []) (he : b.err = none) (hat : f.after = []) :
    (b.Write f p).1 = (p.length, none) ∧ (b.Write f p).2.1.err = none
      ∧ (b.Write f p).2.2.script = [] := by
  obtain ⟨h1, h2⟩ := Writer.writeLoop_nofault (p.length + 2) b f p 0 hs he hat
  have hsp := Writer.Write_spec b f p hat
  have key : (b.Write f p).1.2 = none ∧ (b.Write f p).2.2.script = [] := by
    unfold Writer.Write
    simp only [h1]
    exact ⟨trivial, h2⟩
  have h3 := hsp.2.2 key.1
  refine ⟨Prod.ext h3.1 key.1, h3.2, key.2⟩

theorem putUint64_length (v : Nat) : (putUint64 v).length = 8 := rfl

theorem putUint32_length (v : Nat) : (putUint32 v).length = 4 := rfl

theorem uint64_putUint64 (v : Nat) (h : v < 2 ^ 64) : uint64 (putUint64 v) = v := by
  simp only [uint64, putUint64, List.getD_cons_zero, List.getD_cons_succ, Fin.ofNat, Fin.val_mk]
  omega

theorem uint32_putUint32 (v : Nat) (h : v < 2 ^ 32) : uint32 (putUint32 v) = v := by
  simp only [uint32, putUint32, List.getD_cons_zero, List.getD_cons_succ, Fin.ofNat, Fin.val_mk]
  omega

theorem frame_length (p : List Byte) : (frame p).length = 8 + p.length := by
  simp [frame, putUint64_length]

/-- What an `Append` that returns a `nil` error returns and does to the size
counter, wherever the bytes land. -/
theorem store.Append_ok_count (s : store) (p : List Byte) (hok : (s.Append p).1.2.2 = none) :
    (s.Append p).1.1 = toUint64 (p.length + 8) ∧ (s.Append p).1.2.1 = s.size
      ∧ (s.Append p).2.size = toUint64 (s.size + toUint64 (p.length + 8))
      ∧ (s.Append p).2.buf.err = none := by
  have w2 := Writer.Write_count (s.buf.Write s.File (putUint64 (toUint64 p.length))).2.1
    (s.buf.Write s.File (putUint64 (toUint64 p.length))).2.2 p
  unfold store.Append binaryWrite at hok ⊢
  simp only at hok ⊢
  cases h1 : (s.buf.Write s.File (putUint64 (toUint64 p.length))).1.2 with
  | some e => simp [h1] at hok
  | none =>
    simp only [h1] at hok ⊢
    cases h2 : ((s.buf.Write s.File (putUint64 (toUint64 p.length))).2.1.Write
        (s.buf.Write s.File (putUint64 (toUint64 p.length))).2.2 p).1.2 with
    | some e => simp [h2] at hok
    | none =>
      simp only [h2]
      have n2 := w2.2 h2
      exact ⟨by rw [n2.1, lenWidth], trivial, by rw [n2.1, lenWidth], n2.2⟩

/-- An `Append` keeps the handle writing at the end of the file. -/
theorem store.Append_after (s : store) (p : List Byte) (hat : s.File.after = []) :
    (s.Append p).2.File.after = [] := by
  have w1 := Writer.Write_after s.buf s.File (putUint64 (toUint64 p.length)) hat
  have w2 := Writer.Write_after (s.buf.Write s.File (putUint64 (toUint64 p.length))).2.1
    (s.buf.Write s.File (putUint64 (toUint64 p.length))).2.2 p w1
  unfold store.Append binaryWrite
  simp only
  split
  · exact w1
  · split
    · exact w2
    · exact w2

/-- An `Append` that returns a `nil` error, on a handle that writes at the end
of the file. -/
theorem store.Append_ok (s : store) (p : List Byte) (hok : (s.Append p).1.2.2 = none)
    (hat : s.File.after = []) :
    (s.Append p).1.1 = toUint64 (p.length + 8) ∧ (s.Append p).1.2.1 = s.size
      ∧ (s.Append p).2.size = toUint64 (s.size + toUint64 (p.length + 8))
      ∧ (s.Append p).2.content = s.content ++ frame p
      ∧ (s.Append p).2.buf.err = none := by
  have w1 := Writer.Write_spec s.buf s.File (putUint64 (toUint64 p.length)) hat
  have w2 := Writer.Write_spec (s.buf.Write s.File (putUint64 (toUint64 p.length))).2.1
    (s.buf.Write s.File (putUint64 (toUint64 p.length))).2.2 p
    (Writer.Write_after s.buf s.File (putUint64 (toUint64 p.length)) hat)
  unfold store.Append binaryWrite at hok ⊢
  simp only at hok ⊢
  cases h1 : (s.buf.Write s.File (putUint64 (toUint64 p.length))).1.2 with
  | some e => simp [h1] at hok
  | none =>
    simp only [h1] at hok ⊢
    cases h2 : ((s.buf.Write s.File (putUint64 (toUint64 p.length))).2.1.Write
        (s.buf.Write s.File (putUint64 (toUint64 p.length))).2.2 p).1.2 with
    | some e => simp [h2] at hok
    | none =>
      simp only [h2]
      obtain ⟨c1, -, n1⟩ := w1
      obtain ⟨c2, -, n2⟩ := w2
      have n1 := (n1 h1).1
      have n2 := n2 h2
      refine ⟨by rw [n2.1, lenWidth], trivial, by rw [n2.1, lenWidth], ?_, n2.2⟩
      simp only [store.content, frame]
      rw [c2, c1, n1, n2.1, List.take_length, List.take_length]
      simp [store.content]

/-- An `Append` that returns an error: zero results and the size counter
untouched, wherever the bytes land. -/
theorem store.Append_err (s : store) (p : List Byte) (herr : (s.Append p).1.2.2 ≠ none) :
    (s.Append p).1.1 = 0 ∧ (s.Append p).1.2.1 = 0 ∧ (s.Append p).2.size = s.size := by
  unfold store.Append binaryWrite at herr ⊢
  simp only at herr ⊢
  cases h1 : (s.buf.Write s.File (putUint64 (toUint64 p.length))).1.2 with
  | some e => simp only [h1]; exact ⟨trivial, trivial, trivial⟩
  | none =>
    simp only [h1] at herr ⊢
    cases h2 : ((s.buf.Write s.File (putUint64 (toUint64 p.length))).2.1.Write
        (s.buf.Write s.File (putUint64 (toUint64 p.length))).2.2 p).1.2 with
    | none => simp [h2] at herr
    | some e => simp only [h2]; exact ⟨trivial, trivial, trivial⟩

/-- An `Append` that returns an error, on a handle that writes at the end of
the file: the content is extended by a leading part of the new frame. -/
theorem store.Append_err_content (s : store) (p : List Byte)
    (herr : (s.Append p).1.2.2 ≠ none) (hat : s.File.after = []) :
    ∃ k, (s.Append p).2.content = s.content ++ (frame p).take k := by
  have w1 := Writer.Write_spec s.buf s.File (putUint64 (toUint64 p.length)) hat
  have w2 := Writer.Write_spec (s.buf.Write s.File (putUint64 (toUint64 p.length))).2.1
    (s.buf.Write s.File (putUint64 (toUint64 p.length))).2.2 p
    (Writer.Write_after s.buf s.File (putUint64 (toUint64 p.length)) hat)
  unfold store.Append binaryWrite at herr ⊢
  simp only at herr ⊢
  cases h1 : (s.buf.Write s.File (putUint64 (toUint64 p.length))).1.2 with
  | some e =>
    simp only [h1]
    refine ⟨(s.buf.Write s.File (putUint64 (toUint64 p.length))).1.1, ?_⟩
    simp only [store.content, frame]
    rw [w1.1, List.take_append_of_le_length (by rw [putUint64_length]; exact w1.2.1)]
  | none =>
    simp only [h1] at herr ⊢
    cases h2 : ((s.buf.Write s.File (putUint64 (toUint64 p.length))).2.1.Write
        (s.buf.Write s.File (putUint64 (toUint64 p.length))).2.2 p).1.2 with
    | none => simp [h2] at herr
    | some e =>
      simp only [h2]
      obtain ⟨c1, -, n1⟩ := w1
      obtain ⟨c2, -, -⟩ := w2
      have n1 := (n1 h1).1
      refine ⟨(putUint64 (toUint64 p.length)).length + ((s.buf.Write s.File
        (putUint64 (toUint64 p.length))).2.1.Write
        (s.buf.Write s.File (putUint64 (toUint64 p.length))).2.2 p).1.1, ?_⟩
      simp only [store.content, frame]
      rw [c2, c1, n1, List.take_length, List.take_append]
      simp only [List.append_assoc]

/-- With no failing write ahead and no sticky error `Append` succeeds. -/
theorem store.Append_nofault (s : store) (p : List Byte)
    (hs : s.File.script = []) (he : s.buf.err = none) (hat : s.File.after = []) :
    (s.Append p).1.2.2 = none ∧ (s.Append p).2.File.script = [] := by
  have w1 := Writer.Write_nofault s.buf s.File (putUint64 (toUint64 p.length)) hs he hat
  have w2 := Writer.Write_nofault (s.buf.Write s.File (putUint64 (toUint64 p.length))).2.1
    (s.buf.Write s.File (putUint64 (toUint64 p.length))).2.2 p w1.2.2 w1.2.1
    (Writer.Write_after s.buf s.File (putUint64 (toUint64 p.length)) hat)
  unfold store.Append binaryWrite
  simp only [w1.1, w2.1]
  exact ⟨trivial, w2.2.2⟩

theorem toUint64_of_lt (x : Nat) (h : x < 2 ^ 64) : toUint64 x = x := Nat.mod_eq_of_lt h

theorem toInt64_of_lt (x : Nat) (h : x < 2 ^ 63) : toInt64 x = (x : Int) := by
  have h2 : x % 2 ^ 64 = x := Nat.mod_eq_of_lt (by omega)
  simp only [toInt64, h2, if_pos h]

theorem frames_length (ps : List (List Byte)) :
    (frames ps).length = (ps.map (fun p => 8 + p.length)).sum := by
  induction ps with
  | nil => rfl
  | cons p ps ih => simp [frames, frame_length, ih]

theorem store.Read_state (s : store) (pos : Nat) (hs : s.File.script = []) (he : s.buf.err = none)
    (hat : s.File.after = []) :
    (s.Read pos).2 = s.flushed := by
  unfold store.Read
  simp only [Writer.Flush_nofault s.buf s.File hs he hat]
  repeat' split
  all_goals rfl

theorem store.ReadAt_state (s : store) (n : Nat) (off : Int) (hs : s.File.script = [])
    (he : s.buf.err = none) (hat : s.File.after = []) : (s.ReadAt n off).2 = s.flushed := by
  unfold store.ReadAt
  simp only [Writer.Flush_nofault s.buf s.File hs he hat]
  rfl

/-- Reading the record framed at `pos` when no write can fail. -/
theorem store.Read_frame (s : store) (pre p post : List Byte)
    (hs : s.File.script = []) (he : s.buf.err = none) (hat : s.File.after = [])
    (hc : s.content = pre ++ frame p ++ post) (hlen : s.content.length < 2 ^ 63) :
    (s.Read pre.length).1 = (p, none) := by
  have hl : pre.length + 8 + p.length + post.length < 2 ^ 63 := by
    have := congrArg List.length hc
    simp only [List.length_append, frame_length] at this
    omega
  have hpl : toUint64 p.length = p.length := toUint64_of_lt _ (by omega)
  have hdata : s.File.data ++ s.buf.buf = pre ++ (putUint64 p.length ++ (p ++ post)) := by
    have := hc
    simp only [store.content, frame, hpl, List.append_assoc] at this
    exact this
  unfold store.Read
  simp only [Writer.Flush_nofault s.buf s.File hs he hat, File.ReadAt, File.data, lenWidth,
    toInt64_of_lt pre.length (by omega), toUint64_of_lt (pre.length + 8) (by omega),
    toInt64_of_lt (pre.length + 8) (by omega), List.append_nil]
  rw [show s.File.before ++ s.File.after ++ s.buf.buf
    = pre ++ (putUint64 p.length ++ (p ++ post)) from hdata]
  have h1 : ¬ ((pre.length : Int) < 0) := by omega
  have h2 : ¬ (((pre.length + 8 : Nat) : Int) < 0) := by omega
  have hd1 : List.take 8 (List.drop pre.length (pre ++ (putUint64 p.length ++ (p ++ post))))
      = putUint64 p.length := by
    rw [List.drop_left, List.take_left' (putUint64_length _)]
  have hd2 : List.take p.length
      (List.drop (pre.length + 8) (pre ++ (putUint64 p.length ++ (p ++ post)))) = p := by
    rw [← List.drop_drop, List.drop_left, List.drop_left' (putUint64_length _), List.take_left]
  simp only [h1, h2, if_false, Int.toNat_ofNat, hd1, hd2, putUint64_length,
    uint64_putUint64 p.length (by omega), lt_irrefl, OfNat.ofNat_ne_zero]
  have h3 : ¬ (2 ^ 63 ≤ p.length) := by omega
  simp only [h3, if_false]
  by_cases hp : p.length = 0
  · have : p = [] := List.length_eq_zero.mp hp
    subst this
    simp
  · simp [hp]

theorem store.flushed_content (s : store) : s.flushed.content = s.content := by
  simp [store.flushed, store.content, File.data]

/-- Reads change neither the content nor the size of a store whose writes
cannot fail, and leave it without pending failure. -/
theorem store.run_reads (cs : List Call) : ∀ (s : store), readsOnly cs = true →
    s.File.script = [] → s.buf.err = none → s.File.after = [] →
      (s.run cs).File.script = [] ∧ (s.run cs).buf.err = none
        ∧ (s.run cs).content = s.content ∧ (s.run cs).size = s.size
        ∧ (s.run cs).File.after = [] := by
  induction cs with
  | nil => intro s _ hs he hat; exact ⟨hs, he, rfl, rfl, hat⟩
  | cons c cs ih =>
    intro s hr hs he hat
    cases c with
    | Append p => simp [readsOnly] at hr
    | Read pos =>
      have h := ih s.flushed (by simpa [readsOnly] using hr) rfl rfl rfl
      simp only [store.run, store.call, store.Read_state s pos hs he hat]
      rw [store.flushed_content] at h
      exact h
    | ReadAt n off =>
      have h := ih s.flushed (by simpa [readsOnly] using hr) rfl rfl rfl
      simp only [store.run, store.call, store.ReadAt_state s n off hs he hat]
      rw [store.flushed_content] at h
      exact h

/-- Appending a sequence of payloads to a store whose writes cannot fail. -/
theorem store.appendAll_spec (ps : List (List Byte)) : ∀ (s : store),
    s.File.script = [] → s.buf.err = none → s.File.after = [] → s.size = s.content.length →
    s.content.length + (frames ps).length < 2 ^ 64 →
      (s.appendAll ps).2.File.script = [] ∧ (s.appendAll ps).2.buf.err = none
        ∧ (s.appendAll ps).2.File.after = []
        ∧ (s.appendAll ps).2.content = s.content ++ frames ps
        ∧ (s.appendAll ps).2.size = s.size + (frames ps).length
        ∧ ∀ i, i < ps.length → ∃ pre post,
            (s.appendAll ps).2.content = pre ++ frame (ps.getD i []) ++ post
              ∧ ((s.appendAll ps).1.getD i (0, 0, none)).2.1 = pre.length
              ∧ ((s.appendAll ps).1.getD i (0, 0, none)).2.2 = none
              ∧ ((s.appendAll ps).1.getD i (0, 0, none)).1 = 8 + (ps.getD i []).length := by
  induction ps with
  | nil =>
    intro s hs he hat _ _
    exact ⟨hs, he, hat, by simp [store.appendAll, frames], by simp [store.appendAll, frames],
      fun i hi => absurd hi (by simp)⟩
  | cons p ps ih =>
    intro s hs he hat hsz hfit
    have hfl : (frames (p :: ps)).length = 8 + p.length + (frames ps).length := by
      simp [frames, frame_length]
    obtain ⟨hok, hs1⟩ := store.Append_nofault s p hs he hat
    obtain ⟨a1, a2, a3, a4, a5⟩ := store.Append_ok s p hok hat
    have hu : toUint64 (p.length + 8) = p.length + 8 := toUint64_of_lt _ (by omega)
    have hsz1 : (s.Append p).2.size = s.size + (8 + p.length) := by
      rw [a3, hu, toUint64_of_lt _ (by omega)]; omega
    have hcl : (s.Append p).2.content.length = s.content.length + (8 + p.length) := by
      rw [a4, List.length_append, frame_length]
    obtain ⟨i1, i2, i0, i3, i4, i5⟩ := ih (s.Append p).2 hs1 a5 (store.Append_after s p hat)
      (by rw [hsz1, hcl, hsz]) (by omega)
    refine ⟨i1, i2, i0, ?_, ?_, ?_⟩
    · simp only [store.appendAll, frames]; rw [i3, a4, List.append_assoc]
    · simp only [store.appendAll]; rw [i4, hsz1, hfl]; omega
    · intro i hi
      cases i with
      | zero =>
        refine ⟨s.content, frames ps, ?_, ?_, ?_, ?_⟩
        · simp only [store.appendAll, List.getD_cons_zero]; rw [i3, a4]
        · simp only [store.appendAll, List.getD_cons_zero]; rw [a2, hsz]
        · simp only [store.appendAll, List.getD_cons_zero]; exact hok
        · simp only [store.appendAll, List.getD_cons_zero]; rw [a1, hu]; omega
      | succ i =>
        obtain ⟨pre, post, h1, h2, h3, h4⟩ := i5 i (by simpa using hi)
        exact ⟨pre, post, by simpa only [store.appendAll, List.getD_cons_succ] using h1,
          by simpa only [store.appendAll, List.getD_cons_succ] using h2,
          by simpa only [store.appendAll, List.getD_cons_succ] using h3,
          by simpa only [store.appendAll, List.getD_cons_succ] using h4⟩

/-- C1. Store append/read round trip: on a store opened on an empty file whose
writes all succeed, after appending the payloads `ps` in order (their frames
fitting an `int64` file offset), every `Append` returned no error, and
`Read` at the position returned by the `i`-th `Append` returns exactly the
`i`-th payload with no error, both straight after the appends (bytes possibly
still in the write buffer) and after any sequence of earlier reads (bytes
already flushed). -/
theorem C1_store_append_read_roundtrip (ps : List (List Byte)) (cs : List Call) (i : Nat)
    (hfit : (ps.map (fun p => 8 + p.length)).sum < 2 ^ 63)
    (hcs : readsOnly cs = true) (hi : i < ps.length) :
    (((newStore emptyFile).appendAll ps).1.getD i (0, 0, none)).2.2 = none
      ∧ ((((newStore emptyFile).appendAll ps).2.run cs).Read
          (((newStore emptyFile).appendAll ps).1.getD i (0, 0, none)).2.1).1
        = (ps.getD i [], none) := by
  have hfl := frames_length ps
  obtain ⟨h1, h2, h0, h3, h4, h5⟩ := store.appendAll_spec ps (newStore emptyFile) rfl rfl rfl rfl
    (by simp only [newStore, emptyFile, store.content, File.data, NewWriter, List.append_nil,
          List.length_nil]; omega)
  obtain ⟨pre, post, e1, e2, e3, -⟩ := h5 i hi
  obtain ⟨r1, r2, r3, -, r5⟩ := store.run_reads cs _ hcs h1 h2 h0
  refine ⟨e3, ?_⟩
  rw [e2]
  apply store.Read_frame _ pre _ post r1 r2 r5 (by rw [r3, e1])
  rw [r3, h3]
  simp only [newStore, emptyFile, store.content, File.data, NewWriter, List.append_nil,
    List.nil_append]
  omega

theorem C1_witness :
    (((newStore emptyFile).appendAll [hello, hi]).1.getD 1 (0, 0, none)).2.2 = none
      ∧ ((((newStore emptyFile).appendAll [hello, hi]).2.run [Call.Read 0]).Read
          (((newStore emptyFile).appendAll [hello, hi]).1.getD 1 (0, 0, none)).2.1).1
        = ([hello, hi].getD 1 [], none) :=
  C1_store_append_read_roundtrip [hello, hi] [Call.Read 0] 1 (by decide) (by decide) (by decide)

/-- C2. An `Append` whose writes succeed (it returns a `nil` error) returns
`n = 8 + len(p)` and `pos` = the size before the call, and advances the size
by exactly `8 + len(p)`; sizes are `uint64` values, so the new size is assumed
to fit 64 bits. -/
theorem C2_append_returns_written_and_position (s : store) (p : List Byte)
    (hok : (s.Append p).1.2.2 = none) (hfit : s.size + (8 + p.length) < 2 ^ 64) :
    (s.Append p).1.1 = 8 + p.length ∧ (s.Append p).1.2.1 = s.size
      ∧ (s.Append p).2.size = s.size + (8 + p.length) := by
  obtain ⟨a1, a2, a3, -⟩ := store.Append_ok_count s p hok
  have hu : toUint64 (p.length + 8) = p.length + 8 := toUint64_of_lt _ (by omega)
  refine ⟨by rw [a1, hu]; omega, a2, ?_⟩
  rw [a3, hu, toUint64_of_lt _ (by omega)]; omega

/-- C2, the scenario of the specification: on an empty store `Append("hello")`
returns `(13, 0)` and a following `Append("hi")` returns `(10, 13)`. -/
theorem C2_witness :
    ((newStore emptyFile).Append hello).1 = (13, 0, none)
      ∧ (((newStore emptyFile).Append hello).2.Append hi).1 = (10, 13, none) := by
  have h1 := C2_append_returns_written_and_position (newStore emptyFile) hello
    (by decide) (by decide)
  have h2 := C2_append_returns_written_and_position ((newStore emptyFile).Append hello).2 hi
    (by decide) (by decide)
  exact ⟨Prod.ext h1.1 (Prod.ext h1.2.1 (by decide)),
    Prod.ext h2.1 (Prod.ext (h2.2.1.trans h1.2.2) (by decide))⟩

/-- The error `Write` returns is the error the writer keeps. -/
theorem Writer.Write_err_eq (b : Writer) (f : File) (p : List Byte) :
    (b.Write f p).2.1.err = (b.Write f p).1.2 := by
  unfold Writer.Write
  simp only
  split
  · rename_i e h; simp [h]
  · rename_i h; simp [h]

/-- A write that overfills a non-empty buffer while the next write to the file
fails without writing anything: the buffer is filled up, the flush fails, and
the bytes copied so far stay in the buffer. -/
theorem Writer.Write_fill_fails (b : Writer) (f : File) (p : List Byte) (rest : List (Option Nat))
    (he : b.err = none) (hb : b.buf.length ≠ 0) (hp : p.length > b.Available)
    (hf : f.script = some 0 :: rest) :
    b.Write f p = ((b.Available, some Error.writeFailed),
      { buf := b.buf ++ p.take b.Available, err := some Error.writeFailed },
      { before := f.before, after := f.after, script := rest }) := by
  have hmin : min b.Available p.length = b.Available := by omega
  have hne : (b.buf ++ List.take b.Available p).length ≠ 0 := by
    simp only [List.length_append]; omega
  have hfl : ({ b with buf := b.buf ++ p.take b.Available } : Writer).Flush f
      = (some Error.writeFailed,
          { buf := b.buf ++ p.take b.Available, err := some Error.writeFailed },
          { before := f.before, after := f.after, script := rest }) := by
    unfold Writer.Flush
    simp only [he, hne, if_false, File.Write, File.put, hf]
    simp
  unfold Writer.Write
  have hloop : Writer.writeLoop (p.length + 2) b f p 0
      = ({ buf := b.buf ++ p.take b.Available, err := some Error.writeFailed },
          { before := f.before, after := f.after, script := rest }, p.drop b.Available,
          0 + b.Available) := by
    rw [Writer.writeLoop, if_pos ⟨hp, he⟩, if_neg (by simpa [Writer.Buffered] using hb)]
    simp only [hmin, hfl]
    rw [Writer.writeLoop_done]
    simp
  rw [hloop]
  simp

/-- The failing scenario: a 4089-byte payload appended to a fresh store whose
first write to the file fails. The length is buffered, the payload overfills
the buffer, the flush fails; `Append` returns the error, the size stays 0 and
4096 bytes stay in the buffer. -/
theorem store.Append_bigPayload :
    ((newStore faultyFile).Append bigPayload).1 = (0, 0, some Error.writeFailed)
    ∧ ((newStore faultyFile).Append bigPayload).2.size = 0
    ∧ ((newStore faultyFile).Append bigPayload).2.File.data.length = 0
    ∧ ((newStore faultyFile).Append bigPayload).2.buf.buf.length = 4096 := by
  have h1 : NewWriter.Write faultyFile (putUint64 4089)
      = ((8, none), { buf := putUint64 4089, err := none }, faultyFile) := by decide
  have hl : bigPayload.length = 4089 := List.length_replicate _ _
  have h2 := Writer.Write_fill_fails { buf := putUint64 4089, err := none } faultyFile bigPayload []
    rfl (by decide) (by rw [hl]; decide) rfl
  have hu : toUint64 4089 = 4089 := by decide
  have ha : ({ buf := putUint64 4089, err := none } : Writer).Available = 4088 := by decide
  rw [ha] at h2
  have ht : (List.take 4088 bigPayload).length = 4088 := by
    rw [List.length_take, hl]; decide
  simp only [store.Append, binaryWrite, newStore, hl, hu, h1, h2, List.length_append,
    putUint64_length, ht]
  decide

/-- A `Read` leaves in the store the writer and the file of its flush. -/
theorem store.Read_flush (s : store) (pos : Nat) :
    (s.Read pos).2.File = (s.buf.Flush s.File).2.2 ∧ (s.Read pos).2.buf = (s.buf.Flush s.File).2.1 := by
  unfold store.Read
  simp only
  repeat' split
  all_goals exact ⟨rfl, rfl⟩

theorem store.ReadAt_flush (s : store) (n : Nat) (off : Int) :
    (s.ReadAt n off).2.File = (s.buf.Flush s.File).2.2
      ∧ (s.ReadAt n off).2.buf = (s.buf.Flush s.File).2.1 := by
  unfold store.ReadAt
  simp only
  repeat' split
  all_goals exact ⟨rfl, rfl⟩

/-- Every call keeps the handle writing at the end of the file. -/
theorem store.call_after (s : store) (c : Call) (hat : s.File.after = []) :
    (s.call c).File.after = [] := by
  cases c with
  | Append p => exact store.Append_after s p hat
  | Read pos =>
    simp only [store.call, (store.Read_flush s pos).1]
    exact Writer.Flush_after s.buf s.File hat
  | ReadAt n off =>
    simp only [store.call, (store.ReadAt_flush s n off).1]
    exact Writer.Flush_after s.buf s.File hat

theorem store.run_after (cs : List Call) : ∀ (s : store), s.File.after = [] →
    (s.run cs).File.after = [] := by
  induction cs with
  | nil => intro s hat; exact hat
  | cons c cs ih => intro s hat; exact ih (s.call c) (store.call_after s c hat)

/-- Reads keep the content of a store whose handle writes at the end of the
file, also when their flush fails. -/
theorem store.Read_content (s : store) (pos : Nat) (hat : s.File.after = []) :
    (s.Read pos).2.content = s.content := by
  simp only [store.content, (store.Read_flush s pos).1, (store.Read_flush s pos).2]
  exact Writer.Flush_content s.buf s.File hat

theorem store.ReadAt_content (s : store) (n : Nat) (off : Int) (hat : s.File.after = []) :
    (s.ReadAt n off).2.content = s.content := by
  simp only [store.content, (store.ReadAt_flush s n off).1, (store.ReadAt_flush s n off).2]
  exact Writer.Flush_content s.buf s.File hat

/-- Every call extends the content of a store whose handle writes at the end
of the file. -/
theorem store.call_content (s : store) (c : Call) (hat : s.File.after = []) :
    ∃ t, (s.call c).content = s.content ++ t := by
  cases c with
  | Append p =>
    cases h : (s.Append p).1.2.2 with
    | none => exact ⟨frame p, (store.Append_ok s p h hat).2.2.2.1⟩
    | some e =>
      obtain ⟨k, hk⟩ := store.Append_err_content s p (by rw [h]; simp) hat
      exact ⟨_, hk⟩
  | Read pos => exact ⟨[], by rw [List.append_nil]; exact store.Read_content s pos hat⟩
  | ReadAt n off => exact ⟨[], by rw [List.append_nil]; exact store.ReadAt_content s n off hat⟩

theorem store.run_content_length (cs : List Call) : ∀ (s : store), s.File.after = [] →
    s.content.length ≤ (s.run cs).content.length := by
  induction cs with
  | nil => intro s _; exact le_refl _
  | cons c cs ih =>
    intro s hat
    obtain ⟨t, ht⟩ := store.call_content s c hat
    have := ih (s.call c) (store.call_after s c hat)
    rw [ht, List.length_append] at this
    simp only [store.run]
    omega

/-- Reads leave the size counter alone. -/
theorem store.Read_size (s : store) (pos : Nat) : (s.Read pos).2.size = s.size := by
  unfold store.Read
  simp only
  repeat' split
  all_goals rfl

theorem store.ReadAt_size (s : store) (n : Nat) (off : Int) : (s.ReadAt n off).2.size = s.size := by
  unfold store.ReadAt
  simp only
  repeat' split
  all_goals rfl

theorem store.run_size (cs : List Call) : ∀ (s : store), s.File.after = [] →
    s.size = s.content.length →
    s.appendsSucceed cs = true → (s.run cs).content.length < 2 ^ 64 →
      (s.run cs).size = (s.run cs).content.length := by
  induction cs with
  | nil => intro s _ h _ _; exact h
  | cons c cs ih =>
    intro s hat hsz hok hfit
    simp only [store.appendsSucceed, Bool.and_eq_true, Bool.not_eq_true'] at hok
    simp only [store.run] at hfit ⊢
    apply ih (s.call c) (store.call_after s c hat) _ hok.2 hfit
    have hmono := store.run_content_length cs (s.call c) (store.call_after s c hat)
    cases c with
    | Append p =>
      have h : (s.Append p).1.2.2 = none := by
        simpa [store.appendFails] using hok.1
      obtain ⟨-, -, a3, a4, -⟩ := store.Append_ok s p h hat
      have hl : (s.Append p).2.content.length = s.content.length + (8 + p.length) := by
        rw [a4, List.length_append, frame_length]
      simp only [store.call] at hmono hfit ⊢
      have hb : s.size + (p.length + 8) < 2 ^ 64 := by omega
      rw [hl, a3, toUint64_of_lt (p.length + 8) (by omega), toUint64_of_lt _ hb, hsz]
      omega
    | Read pos =>
      simp only [store.call]
      rw [store.Read_size, hsz, store.Read_content s pos hat]
    | ReadAt n off =>
      simp only [store.call]
      rw [store.ReadAt_size, hsz, store.ReadAt_content s n off hat]

/-- Once the writer holds an error every call returns it and leaves the store
as it is: `Write` and `Flush` of `bufio.Writer` return the sticky error at
once. -/
theorem store.calls_frozen (s : store) (e : Error) (he : s.buf.err = some e) :
    (∀ p, s.Append p = ((0, 0, some e), s)) ∧ (∀ pos, s.Read pos = (([], some e), s))
      ∧ ∀ n off, s.ReadAt n off = (([], some e), s) := by
  have hflush : s.buf.Flush s.File = (some e, s.buf, s.File) := by
    unfold Writer.Flush
    rw [he]
  have hwrite : ∀ q : List Byte, s.buf.Write s.File q = ((0, some e), s.buf, s.File) := by
    intro q
    unfold Writer.Write
    rw [Writer.writeLoop_done _ _ _ _ _ (by rw [he]; simp)]
    simp only [he]
  refine ⟨fun p => ?_, fun pos => ?_, fun n off => ?_⟩
  · unfold store.Append binaryWrite
    simp only [hwrite]
  · unfold store.Read
    simp only [hflush]
  · unfold store.ReadAt
    simp only [hflush]

theorem store.call_frozen (s : store) (c : Call) (e : Error) (he : s.buf.err = some e) :
    s.call c = s := by
  obtain ⟨h1, h2, h3⟩ := store.calls_frozen s e he
  cases c with
  | Append p => simp only [store.call, h1]
  | Read pos => simp only [store.call, h2]
  | ReadAt n off => simp only [store.call, h3]

theorem store.run_frozen (cs : List Call) (s : store) (e : Error) (he : s.buf.err = some e) :
    s.run cs = s := by
  induction cs with
  | nil => rfl
  | cons c cs ih =>
    simp only [store.run]
    rw [store.call_frozen s c e he]
    exact ih

/-- C9 (as amended). Store size invariant: in every state reached from
`newStore` on a file whose handle writes at the end of the file (an empty
file, or a file opened with `O_APPEND`) by a sequence of `Append`, `Read` and
`ReadAt` calls in which no `Append` returns an error (the flush of a `Read`
or `ReadAt` may fail), as long as the content fits a `uint64` counter, the
size counter equals the bytes in the file plus the bytes pending in the write
buffer. -/
theorem C9_store_size_invariant (f : File) (cs : List Call) (hend : f.after = [])
    (hok : (newStore f).appendsSucceed cs = true)
    (hfit : ((newStore f).run cs).content.length < 2 ^ 64) :
    ((newStore f).run cs).size
      = ((newStore f).run cs).File.data.length + ((newStore f).run cs).buf.buf.length := by
  have hmono := store.run_content_length cs (newStore f) hend
  have h0 : (newStore f).content.length = f.data.length := by
    simp [newStore, store.content, NewWriter]
  have hsz : (newStore f).size = (newStore f).content.length := by
    rw [h0]
    exact toUint64_of_lt _ (by omega)
  have h := store.run_size cs (newStore f) hend hsz hok hfit
  rw [h, store.content, List.length_append]

theorem C9_witness :
    ((newStore shortWriteFile).run [Call.Append hello, Call.Read 0]).size
      = ((newStore shortWriteFile).run [Call.Append hello, Call.Read 0]).File.data.length
        + ((newStore shortWriteFile).run [Call.Append hello, Call.Read 0]).buf.buf.length :=
  C9_store_size_invariant shortWriteFile [Call.Append hello, Call.Read 0]
    (by decide) (by decide) (by decide)

/-- C9 as stated fails, in two ways. After an `Append` whose flush of the full
buffer fails, the size counter is 0 while 4096 bytes are pending in the
buffer. And on a 13-byte file opened again without `O_APPEND`, `Append("hi")`
returns no error and the flush of the following `Read` writes at offset 0: the
size counter is 23 while the file has 13 bytes and the buffer is empty. -/
theorem C9_counterexample :
    ((newStore faultyFile).run [Call.Append bigPayload]).size
        ≠ ((newStore faultyFile).run [Call.Append bigPayload]).File.data.length
          + ((newStore faultyFile).run [Call.Append bigPayload]).buf.buf.length
      ∧ (newStore reopenedFile).appendsSucceed [Call.Append hi, Call.Read 0] = true
      ∧ ((newStore reopenedFile).run [Call.Append hi, Call.Read 0]).size = 23
      ∧ ((newStore reopenedFile).run [Call.Append hi, Call.Read 0]).File.data.length = 13
      ∧ ((newStore reopenedFile).run [Call.Append hi, Call.Read 0]).buf.buf.length = 0 := by
  obtain ⟨-, h2, h3, h4⟩ := store.Append_bigPayload
  refine ⟨?_, by decide, by decide, by decide, by decide⟩
  simp only [store.run, store.call]
  rw [h2, h3, h4]
  decide

/-- C10 (as amended). When `Append` returns an error it returns `n = 0` and
`pos = 0` and the size counter is unchanged; when the handle writes at the end
of the file, the content before the call (file bytes followed by buffered
bytes) is still there, followed by at most a leading part of the new frame;
and from then on no call changes the store: after any further calls every
later `Read` and `ReadAt` returns that error and no bytes, and every later
`Append` returns it with `n = 0` and `pos = 0`, so nothing of the unfinished
record can be read. -/
theorem C10_append_failure (s : store) (p : List Byte) (herr : (s.Append p).1.2.2 ≠ none) :
    (s.Append p).1.1 = 0 ∧ (s.Append p).1.2.1 = 0 ∧ (s.Append p).2.size = s.size
      ∧ (s.File.after = [] → ∃ k, (s.Append p).2.content = s.content ++ (frame p).take k)
      ∧ ∀ cs : List Call,
          (s.Append p).2.run cs = (s.Append p).2
            ∧ (∀ q, (((s.Append p).2.run cs).Read q).1 = ([], (s.Append p).1.2.2))
            ∧ (∀ n off, (((s.Append p).2.run cs).ReadAt n off).1 = ([], (s.Append p).1.2.2))
            ∧ ∀ p2, (((s.Append p).2.run cs).Append p2).1 = (0, 0, (s.Append p).1.2.2) := by
  obtain ⟨h1, h2, h3⟩ := store.Append_err s p herr
  refine ⟨h1, h2, h3, store.Append_err_content s p herr, ?_⟩
  have hsticky : (s.Append p).2.buf.err = (s.Append p).1.2.2 := by
    have e1 := Writer.Write_err_eq s.buf s.File (putUint64 (toUint64 p.length))
    have e2 := Writer.Write_err_eq (s.buf.Write s.File (putUint64 (toUint64 p.length))).2.1
      (s.buf.Write s.File (putUint64 (toUint64 p.length))).2.2 p
    unfold store.Append binaryWrite
    simp only
    split
    · rename_i e h; simp only [e1, h]
    · split
      · rename_i e h; simp only [e2, h]
      · rename_i h; simp only [e2, h]
  intro cs
  cases he : (s.Append p).1.2.2 with
  | none => exact absurd he herr
  | some e =>
    rw [he] at hsticky
    have hfr := store.run_frozen cs (s.Append p).2 e hsticky
    obtain ⟨f1, f2, f3⟩ := store.calls_frozen (s.Append p).2 e hsticky
    rw [hfr]
    exact ⟨rfl, fun q => by rw [f2], fun n off => by rw [f3], fun p2 => by rw [f1]⟩

theorem C10_witness :
    (((newStore shortWriteFile).run [Call.Append hello, Call.Read 0]).Append hi).1.1 = 0
      ∧ (((newStore shortWriteFile).run [Call.Append hello, Call.Read 0]).Append hi).1.2.1 = 0
      ∧ (((newStore shortWriteFile).run [Call.Append hello, Call.Read 0]).Append hi).2.size
        = ((newStore shortWriteFile).run [Call.Append hello, Call.Read 0]).size
      ∧ (((newStore shortWriteFile).run [Call.Append hello, Call.Read 0]).File.after = [] →
          ∃ k, (((newStore shortWriteFile).run [Call.Append hello, Call.Read 0]).Append hi).2.content
            = ((newStore shortWriteFile).run [Call.Append hello, Call.Read 0]).content
                ++ (frame hi).take k)
      ∧ ∀ cs : List Call,
          (((newStore shortWriteFile).run [Call.Append hello, Call.Read 0]).Append hi).2.run cs
              = (((newStore shortWriteFile).run [Call.Append hello, Call.Read 0]).Append hi).2
            ∧ (∀ q, (((((newStore shortWriteFile).run [Call.Append hello, Call.Read 0]).Append
                  hi).2.run cs).Read q).1
                = ([], (((newStore shortWriteFile).run
                    [Call.Append hello, Call.Read 0]).Append hi).1.2.2))
            ∧ (∀ n off, (((((newStore shortWriteFile).run [Call.Append hello, Call.Read 0]).Append
                  hi).2.run cs).ReadAt n off).1
                = ([], (((newStore shortWriteFile).run
                    [Call.Append hello, Call.Read 0]).Append hi).1.2.2))
            ∧ ∀ p2, (((((newStore shortWriteFile).run [Call.Append hello, Call.Read 0]).Append
                  hi).2.run cs).Append p2).1
                = (0, 0, (((newStore shortWriteFile).run
                    [Call.Append hello, Call.Read 0]).Append hi).1.2.2) :=
  C10_append_failure ((newStore shortWriteFile).run [Call.Append hello, Call.Read 0]) hi
    (by decide)

/-- C10 as stated fails: the `Append` of the 4089-byte payload returns an
error, yet the content of the store is no longer what it was before the call
(4096 bytes of the unfinished record sit in the buffer). -/
theorem C10_counterexample :
    ((newStore faultyFile).Append bigPayload).1.2.2 ≠ none
      ∧ ((newStore faultyFile).Append bigPayload).2.content ≠ (newStore faultyFile).content := by
  obtain ⟨h1, -, h3, h4⟩ := store.Append_bigPayload
  refine ⟨by rw [h1]; decide, fun h => ?_⟩
  have hl := congrArg List.length h
  simp only [store.content, List.length_append, h3, h4] at hl
  revert hl
  decide

theorem encodeEntry_length (e : Nat × Nat) : (encodeEntry e).length = 12 := rfl

theorem encodeEntries_length (es : List (Nat × Nat)) :
    (encodeEntries es).length = 12 * es.length := by
  induction es with
  | nil => rfl
  | cons e es ih =>
    simp only [encodeEntries, List.length_append, encodeEntry_length, ih, List.length_cons]
    omega

theorem toUint32_lt (x : Int) : toUint32 x < 2 ^ 32 := by
  unfold toUint32
  omega

theorem toUint32_of_nat (k : Nat) (h : k < 2 ^ 32) : toUint32 (k : Int) = k := by
  unfold toUint32
  omega

theorem index.isMaxed_eq (i : index) (hcap : i.mmap.length < 2 ^ 63) (hle : i.size ≤ i.mmap.length) :
    i.isMaxed = decide (i.mmap.length < i.size + 12) := by
  unfold index.isMaxed
  rw [toUint64_of_lt _ (by omega), toUint64_of_lt _ (by simp only [entWidth, offWidth, posWidth]; omega)]
  rfl

/-- A `Write` with room for one more entry. -/
theorem index.Write_ok (i : index) (off pos : Nat) (hcap : i.mmap.length < 2 ^ 63)
    (hroom : i.size + 12 ≤ i.mmap.length) :
    i.Write off pos = (none,
      { mmap := i.mmap.take i.size ++ encodeEntry (off, pos) ++ i.mmap.drop (i.size + 12),
        size := i.size + 12 }) := by
  have hm : i.isMaxed = false := by
    rw [index.isMaxed_eq i hcap (by omega)]
    simp only [decide_eq_false_iff_not]; omega
  have h4 : toUint64 (i.size + offWidth) = i.size + 4 := toUint64_of_lt _ (by simp only [offWidth]; omega)
  have h12 : toUint64 (i.size + entWidth) = i.size + 12 :=
    toUint64_of_lt _ (by simp only [entWidth, offWidth, posWidth]; omega)
  have hs1 : slice i.mmap i.size (i.size + 4) = some ((i.mmap.drop i.size).take (i.size + 4 - i.size)) := by
    unfold slice; rw [if_pos ⟨by omega, by omega⟩]
  have hs2 : slice i.mmap (i.size + 4) (i.size + 12)
      = some ((i.mmap.drop (i.size + 4)).take (i.size + 12 - (i.size + 4))) := by
    unfold slice; rw [if_pos ⟨by omega, by omega⟩]
  unfold index.Write
  simp only [hm, h4, h12, hs1, hs2, Bool.false_eq_true, if_false]
  have htl : (List.take i.size i.mmap).length = i.size := by
    rw [List.length_take]; omega
  congr 2
  unfold putAt encodeEntry
  simp only [putUint32_length, putUint64_length]
  have e1 : List.take (i.size + 4) (List.take i.size i.mmap ++ putUint32 off ++ List.drop (i.size + 4) i.mmap)
      = List.take i.size i.mmap ++ putUint32 off := by
    apply List.take_left'
    simp only [List.length_append, htl, putUint32_length]
  have e2 : List.drop (i.size + 4 + 8) (List.take i.size i.mmap ++ putUint32 off ++ List.drop (i.size + 4) i.mmap)
      = List.drop (i.size + 12) i.mmap := by
    rw [← List.drop_drop, List.drop_left' (by simp only [List.length_append, htl, putUint32_length]),
      List.drop_drop]
  rw [e1, e2]
  simp only [List.append_assoc]

/-- Writing a sequence of entries for which there is room. -/
theorem index.writeAll_spec (es : List (Nat × Nat)) : ∀ (i : index), i.mmap.length < 2 ^ 63 →
    i.size + 12 * es.length ≤ i.mmap.length →
      (∀ x ∈ (i.writeAll es).1, x = none) ∧ (i.writeAll es).1.length = es.length
        ∧ (i.writeAll es).2.size = i.size + 12 * es.length
        ∧ (i.writeAll es).2.mmap
            = i.mmap.take i.size ++ encodeEntries es ++ i.mmap.drop (i.size + 12 * es.length) := by
  induction es with
  | nil =>
    intro i _ _
    refine ⟨by simp [index.writeAll], rfl, rfl, ?_⟩
    simp [index.writeAll, encodeEntries]
  | cons e es ih =>
    intro i hcap hroom
    simp only [List.length_cons] at hroom
    have hw := index.Write_ok i e.1 e.2 hcap (by omega)
    have htl : (List.take i.size i.mmap).length = i.size := by
      rw [List.length_take]; omega
    have hlen : (i.Write e.1 e.2).2.mmap.length = i.mmap.length := by
      rw [hw]
      simp only [List.length_append, htl, encodeEntry_length, List.length_drop]
      omega
    obtain ⟨a1, a2, a3, a4⟩ := ih (i.Write e.1 e.2).2 (by rw [hlen]; exact hcap)
      (by rw [hlen, hw]; simp only; omega)
    refine ⟨?_, ?_, ?_, ?_⟩
    · intro x hx
      simp only [index.writeAll, List.mem_cons] at hx
      rcases hx with hx | hx
      · rw [hx, hw]
      · exact a1 x hx
    · simp only [index.writeAll, List.length_cons, a2]
    · simp only [index.writeAll, List.length_cons]
      rw [a3, hw]; simp only; omega
    · simp only [index.writeAll, List.length_cons]
      rw [a4, hw]
      simp only [encodeEntries]
      have t1 : List.take (i.size + 12)
          (List.take i.size i.mmap ++ encodeEntry (e.1, e.2) ++ List.drop (i.size + 12) i.mmap)
            = List.take i.size i.mmap ++ encodeEntry (e.1, e.2) := by
        apply List.take_left'
        simp only [List.length_append, htl, encodeEntry_length]
      have t2 : List.drop (i.size + 12 + 12 * es.length)
          (List.take i.size i.mmap ++ encodeEntry (e.1, e.2) ++ List.drop (i.size + 12) i.mmap)
            = List.drop (i.size + 12 * (es.length + 1)) i.mmap := by
        rw [← List.drop_drop,
          List.drop_left' (by simp only [List.length_append, htl, encodeEntry_length]),
          List.drop_drop]
        congr 1; omega
      rw [t1, t2]
      simp only [List.append_assoc]

theorem entWidth_eq : entWidth = 12 := rfl

/-- What `Read` returns on a non-empty index whose size is within the mapped
region: the entry at the selected index when it lies below `size`, else
end-of-data. -/
theorem index.Read_spec (i : index) (sel : Int)
    (hle : i.size ≤ i.mmap.length) (hnz : i.size ≠ 0) :
    (12 * i.selected sel + 12 ≤ i.size →
        i.Read sel = ((entryAt i.mmap (i.selected sel)).1, (entryAt i.mmap (i.selected sel)).2, none))
      ∧ (i.size < 12 * i.selected sel + 12 → i.Read sel = (0, 0, some Error.EOF)) := by
  have hlt : i.selected sel < 2 ^ 32 := by
    unfold index.selected; split <;> exact toUint32_lt _
  have hout : (if sel = -1 then toUint32 (((i.size / entWidth : Nat) : Int) - 1) else toUint32 sel)
      = i.selected sel := rfl
  have hpos : toUint64 (i.selected sel * entWidth) = 12 * i.selected sel := by
    rw [entWidth_eq, toUint64_of_lt _ (by omega)]; omega
  have h12 : toUint64 (12 * i.selected sel + entWidth) = 12 * i.selected sel + 12 := by
    rw [entWidth_eq, toUint64_of_lt _ (by omega)]
  have h4 : toUint64 (12 * i.selected sel + offWidth) = 12 * i.selected sel + 4 := by
    rw [show offWidth = 4 from rfl, toUint64_of_lt _ (by omega)]
  unfold index.Read
  simp only [hnz, if_false, hout, hpos, h12, h4]
  constructor
  · intro h
    have hn : ¬ (i.size < 12 * i.selected sel + 12) := by omega
    have hs1 : slice i.mmap (12 * i.selected sel) (12 * i.selected sel + 4)
        = some ((i.mmap.drop (12 * i.selected sel)).take 4) := by
      unfold slice; rw [if_pos ⟨by omega, by omega⟩]; congr 2; omega
    have hs2 : slice i.mmap (12 * i.selected sel + 4) (12 * i.selected sel + 12)
        = some ((i.mmap.drop (12 * i.selected sel + 4)).take 8) := by
      unfold slice; rw [if_pos ⟨by omega, by omega⟩]; congr 2; omega
    simp only [hn, if_false, hs1, hs2, entryAt]
  · intro h
    simp only [h, if_true]

theorem drop_encodeEntries (es : List (Nat × Nat)) (rest : List Byte) : ∀ (k : Nat),
    k ≤ es.length →
      List.drop (12 * k) (encodeEntries es ++ rest) = encodeEntries (es.drop k) ++ rest := by
  induction es with
  | nil => intro k hk; simp at hk; subst hk; rfl
  | cons e es ih =>
    intro k hk
    cases k with
    | zero => rfl
    | succ k =>
      simp only [List.length_cons, Nat.add_le_add_iff_right] at hk
      have : 12 * (k + 1) = 12 + 12 * k := by omega
      rw [this, ← List.drop_drop, encodeEntries, List.append_assoc,
        List.drop_left' (encodeEntry_length e), ih k hk, List.drop_succ_cons]

/-- Decoding the `k`-th entry of a region that starts with the encoded entries. -/
theorem entryAt_encodeEntries (es : List (Nat × Nat)) (rest : List Byte) (k : Nat)
    (hk : k < es.length) :
    entryAt (encodeEntries es ++ rest) k
      = ((es.getD k (0, 0)).1 % 2 ^ 32, (es.getD k (0, 0)).2 % 2 ^ 64) := by
  have hd := drop_encodeEntries es rest k (by omega)
  obtain ⟨e, tl, htl⟩ : ∃ e tl, es.drop k = e :: tl := by
    cases h : es.drop k with
    | nil =>
      have := congrArg List.length h
      simp only [List.length_drop, List.length_nil] at this
      omega
    | cons e tl => exact ⟨e, tl, rfl⟩
  have hget : es.getD k (0, 0) = e := by
    have h1 : es[k]? = some e := by
      rw [← List.head?_drop, htl]; rfl
    rw [List.getD_eq_getElem?_getD, h1]; rfl
  unfold entryAt
  have hd4 : List.drop (12 * k + 4) (encodeEntries es ++ rest)
      = putUint64 e.2 ++ (encodeEntries tl ++ rest) := by
    rw [← List.drop_drop, hd, htl, encodeEntries, encodeEntry, List.append_assoc, List.append_assoc,
      List.drop_left' (putUint32_length _)]
  rw [hd4, hd, htl, encodeEntries, encodeEntry, List.append_assoc, List.append_assoc,
    List.take_left' (putUint32_length _), List.take_left' (putUint64_length _), hget]
  have a : uint32 (putUint32 e.1) = e.1 % 2 ^ 32 := by
    simp only [uint32, putUint32, List.getD_cons_zero, List.getD_cons_succ, Fin.ofNat, Fin.val_mk]
    omega
  have b : uint64 (putUint64 e.2) = e.2 % 2 ^ 64 := by
    simp only [uint64, putUint64, List.getD_cons_zero, List.getD_cons_succ, Fin.ofNat, Fin.val_mk]
    omega
  rw [a, b]

/-- Creating an index on an empty file. -/
theorem newIndex_empty (c : Config) (h0 : 0 < c.Segment.MaxIndexBytes)
    (hmax : c.Segment.MaxIndexBytes < 2 ^ 63) :
    newIndex [] c
      = Except.ok { mmap := List.replicate c.Segment.MaxIndexBytes 0, size := 0 } := by
  have h1 : ¬ (toInt64 c.Segment.MaxIndexBytes < 0) := by
    rw [toInt64_of_lt _ hmax]; omega
  have h2 : toUint64 c.Segment.MaxIndexBytes = c.Segment.MaxIndexBytes :=
    toUint64_of_lt _ (by omega)
  unfold newIndex
  simp only [h1, if_false, h2, truncate, List.take_nil, List.nil_append, List.length_nil,
    Nat.sub_zero, List.length_replicate]
  rw [if_neg (by omega)]
  rfl

/-- Writes that all succeed had room. -/
theorem index.writeAll_room (es : List (Nat × Nat)) : ∀ (i : index), i.mmap.length < 2 ^ 63 →
    i.size ≤ i.mmap.length → (∀ x ∈ (i.writeAll es).1, x = none) →
      i.size + 12 * es.length ≤ i.mmap.length := by
  induction es with
  | nil => intro i _ hle _; simpa using hle
  | cons e es ih =>
    intro i hcap hle hall
    have hfirst : (i.Write e.1 e.2).1 = none := hall _ (by simp [index.writeAll])
    have hroom : i.size + 12 ≤ i.mmap.length := by
      by_contra hn
      have hm : i.isMaxed = true := by
        rw [index.isMaxed_eq i hcap hle]
        simp only [decide_eq_true_eq]; omega
      unfold index.Write at hfirst
      rw [hm] at hfirst
      simp at hfirst
    have hw := index.Write_ok i e.1 e.2 hcap hroom
    have htl : (List.take i.size i.mmap).length = i.size := by
      rw [List.length_take]; omega
    have hlen : (i.Write e.1 e.2).2.mmap.length = i.mmap.length := by
      rw [hw]
      simp only [List.length_append, htl, encodeEntry_length, List.length_drop]
      omega
    have := ih (i.Write e.1 e.2).2 (by rw [hlen]; exact hcap) (by rw [hlen, hw]; exact hroom)
      (fun x hx => hall x (by simp only [index.writeAll, List.mem_cons]; exact Or.inr hx))
    rw [hlen, hw] at this
    simp only [List.length_cons] at this ⊢
    omega

/-- The index after writing entries into a fresh index on an empty file. -/
theorem index.writeAll_fresh (cap : Nat) (es : List (Nat × Nat)) (hcap : cap < 2 ^ 63)
    (hroom : 12 * es.length ≤ cap) :
    (∀ x ∈ (({ mmap := List.replicate cap 0, size := 0 } : index).writeAll es).1, x = none)
      ∧ (({ mmap := List.replicate cap 0, size := 0 } : index).writeAll es).1.length = es.length
      ∧ (({ mmap := List.replicate cap 0, size := 0 } : index).writeAll es).2
          = index.filled cap es := by
  obtain ⟨a1, a2, a3, a4⟩ := index.writeAll_spec es { mmap := List.replicate cap 0, size := 0 }
    (by simpa using hcap) (by simpa using hroom)
  refine ⟨a1, a2, ?_⟩
  simp only [Nat.zero_add, List.take_zero, List.nil_append, List.drop_replicate] at a3 a4
  generalize ({ mmap := List.replicate cap 0, size := 0 } : index).writeAll es = r at *
  obtain ⟨errs, ⟨m, sz⟩⟩ := r
  simp only at a3 a4
  rw [a3, a4]
  rfl

theorem numbered_length (n : Nat) (pos : Nat → Nat) : (numbered n pos).length = n + 1 := by
  simp [numbered]

theorem numbered_getD (n : Nat) (pos : Nat → Nat) (k : Nat) (hk : k ≤ n) :
    (numbered n pos).getD k (0, 0) = (k, pos k) := by
  have hk1 : k < (List.range (n + 1)).length := by simp; omega
  rw [List.getD_eq_getElem?_getD, numbered, List.getElem?_map,
    List.getElem?_eq_getElem hk1, List.getElem_range]
  rfl

/-- C3. Index write-then-read lookup: on an index freshly created on an empty
file with capacity at least `12 * (n + 1)`, the writes of the entries
`(0, pos 0), ..., (n, pos n)` all succeed, after them `Read(i)` returns
`(i, pos i)` with no error for every `0 ≤ i ≤ n`, and `Read(-1)` returns
`(n, pos n)`. Offsets are `uint32` and positions `uint64` values. -/
theorem C3_index_write_then_read (c : Config) (n : Nat) (pos : Nat → Nat)
    (hroom : 12 * (n + 1) ≤ c.Segment.MaxIndexBytes) (hmax : c.Segment.MaxIndexBytes < 2 ^ 63)
    (hn : n < 2 ^ 32) (hpos : ∀ k, k ≤ n → pos k < 2 ^ 64) :
    ∃ i0, newIndex [] c = Except.ok i0
      ∧ (∀ x ∈ (i0.writeAll (numbered n pos)).1, x = none)
      ∧ (∀ k : Nat, k ≤ n → (i0.writeAll (numbered n pos)).2.Read (k : Int) = (k, pos k, none))
      ∧ (i0.writeAll (numbered n pos)).2.Read (-1) = (n, pos n, none) := by
  have hl := numbered_length n pos
  obtain ⟨a1, -, a3⟩ := index.writeAll_fresh c.Segment.MaxIndexBytes (numbered n pos) hmax
    (by rw [hl]; exact hroom)
  refine ⟨_, newIndex_empty c (by omega) hmax, a1, ?_, ?_⟩
  · intro k hk
    rw [a3]
    have hsel : index.selected (index.filled c.Segment.MaxIndexBytes (numbered n pos)) (k : Int) = k := by
      unfold index.selected
      rw [if_neg (by omega), toUint32_of_nat k (by omega)]
    have h := (index.Read_spec (index.filled c.Segment.MaxIndexBytes (numbered n pos)) (k : Int)
      (by simp only [index.filled, List.length_append, encodeEntries_length, List.length_replicate]; omega)
      (by simp only [index.filled, hl]; omega)).1
    rw [hsel] at h
    rw [h (by simp only [index.filled, hl]; omega)]
    simp only [index.filled]
    rw [entryAt_encodeEntries _ _ k (by omega),
      numbered_getD n pos k hk]
    simp only [Nat.mod_eq_of_lt (hpos k hk), Nat.mod_eq_of_lt (show k < 2 ^ 32 by omega)]
  · rw [a3]
    have hsel : index.selected (index.filled c.Segment.MaxIndexBytes (numbered n pos)) (-1) = n := by
      unfold index.selected
      rw [if_pos rfl]
      simp only [index.filled, hl, entWidth_eq]
      have : ((12 * (n + 1) / 12 : Nat) : Int) - 1 = (n : Int) := by omega
      rw [this, toUint32_of_nat n hn]
    have h := (index.Read_spec (index.filled c.Segment.MaxIndexBytes (numbered n pos)) (-1)
      (by simp only [index.filled, List.length_append, encodeEntries_length, List.length_replicate]; omega)
      (by simp only [index.filled, hl]; omega)).1
    rw [hsel] at h
    rw [h (by simp only [index.filled, hl]; omega)]
    simp only [index.filled]
    rw [entryAt_encodeEntries _ _ n (by omega),
      numbered_getD n pos n (le_refl _)]
    simp only [Nat.mod_eq_of_lt (hpos n (le_refl _)), Nat.mod_eq_of_lt hn]

theorem C3_witness :
    ∃ i0, newIndex [] (configOf 40) = Except.ok i0
      ∧ (∀ x ∈ (i0.writeAll (numbered 2 (fun k => 13 * k))).1, x = none)
      ∧ (∀ k : Nat, k ≤ 2 →
          (i0.writeAll (numbered 2 (fun k => 13 * k))).2.Read (k : Int) = (k, 13 * k, none))
      ∧ (i0.writeAll (numbered 2 (fun k => 13 * k))).2.Read (-1) = (2, 13 * 2, none) :=
  C3_index_write_then_read (configOf 40) 2 (fun k => 13 * k) (by decide) (by decide) (by decide)
    (fun k hk => by show 13 * k < 2 ^ 64; omega)

theorem index.filled_isMaxed (cap : Nat) (es : List (Nat × Nat)) (hcap : cap < 2 ^ 63)
    (hroom : 12 * es.length ≤ cap) :
    (index.filled cap es).isMaxed = decide (cap < 12 * es.length + 12) := by
  have hlen : (index.filled cap es).mmap.length = cap := by
    simp only [index.filled, List.length_append, encodeEntries_length, List.length_replicate]
    omega
  rw [index.isMaxed_eq _ (by rw [hlen]; exact hcap) (by rw [hlen]; exact hroom), hlen]
  rfl

/-- C4. Index capacity boundary: for every `N ≥ 1`, on an index freshly
created on an empty file with `MaxIndexBytes = 12 * N`, the first `N` writes
(of any entries `es`) succeed and the `(N+1)`-th returns `io.EOF`; `isMaxed`
is false before the `N`-th write and true after it. -/
theorem C4_index_capacity_boundary (c : Config) (N : Nat) (es : List (Nat × Nat))
    (next : Nat × Nat) (hN : 1 ≤ N) (hc : c.Segment.MaxIndexBytes = 12 * N)
    (hfit : 12 * N < 2 ^ 63) (hes : es.length = N) :
    ∃ i0, newIndex [] c = Except.ok i0
      ∧ (i0.writeAll es).1.length = N ∧ (∀ x ∈ (i0.writeAll es).1, x = none)
      ∧ ((i0.writeAll es).2.Write next.1 next.2).1 = some Error.EOF
      ∧ (i0.writeAll (es.take (N - 1))).2.isMaxed = false
      ∧ (i0.writeAll es).2.isMaxed = true := by
  have hmax : c.Segment.MaxIndexBytes < 2 ^ 63 := by rw [hc]; exact hfit
  have htl : (es.take (N - 1)).length = N - 1 := by rw [List.length_take]; omega
  obtain ⟨a1, a2, a3⟩ := index.writeAll_fresh c.Segment.MaxIndexBytes es hmax (by rw [hes, hc])
  obtain ⟨-, -, b3⟩ := index.writeAll_fresh c.Segment.MaxIndexBytes (es.take (N - 1)) hmax
    (by rw [htl, hc]; omega)
  have m1 := index.filled_isMaxed c.Segment.MaxIndexBytes es hmax (by rw [hes, hc])
  have m2 := index.filled_isMaxed c.Segment.MaxIndexBytes (es.take (N - 1)) hmax
    (by rw [htl, hc]; omega)
  have hfull : (index.filled c.Segment.MaxIndexBytes es).isMaxed = true := by
    rw [m1, hes, hc]; simp
  refine ⟨_, newIndex_empty c (by omega) hmax, by rw [a2, hes], a1, ?_, ?_, ?_⟩
  · rw [a3]
    unfold index.Write
    rw [hfull]
    rfl
  · rw [b3, m2, htl, hc]
    simp only [decide_eq_false_iff_not]
    omega
  · rw [a3]; exact hfull

theorem C4_witness :
    ∃ i0, newIndex [] (configOf 24) = Except.ok i0
      ∧ (i0.writeAll [(0, 0), (1, 13)]).1.length = 2
      ∧ (∀ x ∈ (i0.writeAll [(0, 0), (1, 13)]).1, x = none)
      ∧ ((i0.writeAll [(0, 0), (1, 13)]).2.Write (2, 23).1 (2, 23).2).1 = some Error.EOF
      ∧ (i0.writeAll ([(0, 0), (1, 13)].take (2 - 1))).2.isMaxed = false
      ∧ (i0.writeAll [(0, 0), (1, 13)]).2.isMaxed = true :=
  C4_index_capacity_boundary (configOf 24) 2 [(0, 0), (1, 13)] (2, 23) (by decide) (by decide)
    (by decide) (by decide)

/-- What `Read` does with a selector other than `-1` on an index with
`0 < size ≤` length of the mapped region: it looks up the entry index
`uint32(s)` (`s` modulo `2^32`), returns the entry stored there when
`12 * uint32(s) + 12 ≤ size` and `io.EOF` otherwise; for `0 ≤ s < 2^32` that
index is `s` itself. -/
theorem index.Read_selector (i : index) (s : Int) (hpos : 0 < i.size)
    (hle : i.size ≤ i.mmap.length) (hs : s ≠ -1) :
    (12 * toUint32 s + 12 ≤ i.size →
        i.Read s = ((entryAt i.mmap (toUint32 s)).1, (entryAt i.mmap (toUint32 s)).2, none))
      ∧ (i.size < 12 * toUint32 s + 12 → i.Read s = (0, 0, some Error.EOF))
      ∧ (0 ≤ s → s < 2 ^ 32 → toUint32 s = s.toNat) := by
  have h := index.Read_spec i s hle (by omega)
  have hsel : i.selected s = toUint32 s := by
    unfold index.selected; rw [if_neg hs]
  rw [hsel] at h
  refine ⟨h.1, h.2, fun h0 h1 => ?_⟩
  unfold toUint32
  omega

/-- C5. Index Read selector semantics, evaluated where the code departs from
it: on the index holding the single entry `(7, 99)` the selector `2^32` names
no entry (`12 * 2^32 + 12` exceeds the size 12), so `Read(2^32)` should return
`io.EOF`; the conversion `uint32(in)` wraps it to 0 and `Read` returns entry 0
with no error. -/
theorem C5_read_selector_wraps :
    newIndex [] (configOf 24) = Except.ok freshIndex24
      ∧ (freshIndex24.Write 7 99).1 = none
      ∧ (freshIndex24.Write 7 99).2.size = 12
      ∧ ¬ (12 * (2 ^ 32 : Int) + 12 ≤ 12)
      ∧ (freshIndex24.Write 7 99).2.Read (2 ^ 32) = (7, 99, none) :=
  ⟨by rfl, by decide, by decide, by decide, by decide⟩

/-- C6. Empty index: on an index whose size is 0, `Read` returns
`(0, 0, io.EOF)` for every selector, `-1` included. -/
theorem C6_index_read_empty (i : index) (sel : Int) (h : i.size = 0) :
    i.Read sel = (0, 0, some Error.EOF) := by
  unfold index.Read
  rw [if_pos h]

theorem C6_witness : freshIndex24.Read (-1) = (0, 0, some Error.EOF) :=
  C6_index_read_empty freshIndex24 (-1) (by decide)

/-- C8. Index Write refusal at capacity: when `isMaxed()` is true, `Write`
returns `io.EOF` and leaves the index as it was: the size and every byte of
the mapped region are unchanged. -/
theorem C8_index_write_refused_when_maxed (i : index) (off pos : Nat) (h : i.isMaxed = true) :
    i.Write off pos = (some Error.EOF, i) := by
  unfold index.Write
  rw [h]
  rfl

theorem C8_witness :
    ((freshIndex24.Write 0 0).2.Write 1 13).2.Write 2 23
      = (some Error.EOF, ((freshIndex24.Write 0 0).2.Write 1 13).2) :=
  C8_index_write_refused_when_maxed ((freshIndex24.Write 0 0).2.Write 1 13).2 2 23 (by decide)

/-- C7. Index reopen durability: on an index created on an empty file, after
the writes of the entries `es` all succeeded, `Close` succeeds and leaves a
backing file of exactly `12 * n` bytes (`n` the number of entries), the
encoded entries; `newIndex` on that file with the same configuration succeeds
with size `12 * n`, and its `Read` returns, for every selector (so for every
`0 ≤ i < n` and for `-1`), what `Read` returned before the close. -/
theorem C7_index_reopen_durability (c : Config) (es : List (Nat × Nat)) (i0 : index)
    (hnew : newIndex [] c = Except.ok i0)
    (hall : ∀ x ∈ (i0.writeAll es).1, x = none) :
    ∃ f i1, (i0.writeAll es).2.Close = Except.ok f
      ∧ f.length = 12 * es.length ∧ f = encodeEntries es
      ∧ newIndex f c = Except.ok i1 ∧ i1.size = 12 * es.length
      ∧ ∀ sel, i1.Read sel = (i0.writeAll es).2.Read sel := by
  -- creation succeeded: the capacity is positive and fits an int64
  have hcap : 0 < c.Segment.MaxIndexBytes % 2 ^ 64 ∧ c.Segment.MaxIndexBytes % 2 ^ 64 < 2 ^ 63 := by
    unfold newIndex at hnew
    by_cases h1 : toInt64 c.Segment.MaxIndexBytes < 0
    · rw [if_pos h1] at hnew; cases hnew
    · simp only [if_neg h1, truncate, toUint64, List.take_nil, List.nil_append, List.length_nil,
        Nat.sub_zero, List.length_replicate] at hnew
      by_cases h2 : c.Segment.MaxIndexBytes % 2 ^ 64 = 0
      · rw [if_pos h2] at hnew; cases hnew
      · refine ⟨by omega, ?_⟩
        unfold toInt64 at h1
        by_contra hn
        rw [if_neg hn] at h1
        omega
  have hi0 : i0 = { mmap := List.replicate (c.Segment.MaxIndexBytes % 2 ^ 64) 0, size := 0 } := by
    have h1 : ¬ (toInt64 c.Segment.MaxIndexBytes < 0) := by
      unfold toInt64; rw [if_pos hcap.2]; omega
    unfold newIndex at hnew
    simp only [if_neg h1, truncate, toUint64, List.take_nil, List.nil_append, List.length_nil,
      Nat.sub_zero, List.length_replicate] at hnew
    rw [if_neg (by omega)] at hnew
    simp only [Except.ok.injEq] at hnew
    exact hnew.symm
  subst hi0
  have hroom := index.writeAll_room es _ (by simpa using hcap.2) (by simp) hall
  simp only [List.length_replicate, Nat.zero_add] at hroom
  obtain ⟨-, -, a3⟩ := index.writeAll_fresh (c.Segment.MaxIndexBytes % 2 ^ 64) es hcap.2 hroom
  rw [a3]
  have hel := encodeEntries_length es
  have hclose : (index.filled (c.Segment.MaxIndexBytes % 2 ^ 64) es).Close
      = Except.ok (encodeEntries es) := by
    have h1 : ¬ (toInt64 (12 * es.length) < 0) := by
      rw [toInt64_of_lt _ (by omega)]; omega
    unfold index.Close
    simp only [index.filled, if_neg h1, truncate, List.length_append, hel, List.length_replicate]
    rw [List.take_left' hel, show 12 * es.length
      - (12 * es.length + (c.Segment.MaxIndexBytes % 2 ^ 64 - 12 * es.length)) = 0 by omega]
    simp
  have hre : newIndex (encodeEntries es) c
      = Except.ok (index.filled (c.Segment.MaxIndexBytes % 2 ^ 64) es) := by
    have h1 : ¬ (toInt64 c.Segment.MaxIndexBytes < 0) := by
      unfold toInt64; rw [if_pos hcap.2]; omega
    unfold newIndex
    simp only [if_neg h1, truncate, toUint64, hel, List.length_append, List.length_replicate]
    rw [List.take_of_length_le (by omega), if_neg (by omega),
      Nat.mod_eq_of_lt (show 12 * es.length < 2 ^ 64 by omega)]
    rfl
  exact ⟨_, _, hclose, hel, rfl, hre, rfl, fun _ => rfl⟩

theorem C7_witness :
    ∃ f i1, (freshIndex24.writeAll [(0, 0)]).2.Close = Except.ok f
      ∧ f.length = 12 * [((0 : Nat), (0 : Nat))].length ∧ f = encodeEntries [(0, 0)]
      ∧ newIndex f (configOf 24) = Except.ok i1 ∧ i1.size = 12 * [((0 : Nat), (0 : Nat))].length
      ∧ ∀ sel, i1.Read sel = (freshIndex24.writeAll [(0, 0)]).2.Read sel :=
  C7_index_reopen_durability (configOf 24) [(0, 0)] freshIndex24 (by rfl) (by decide)

theorem putUint64_toUint64 (v : Nat) : putUint64 (toUint64 v) = putUint64 v := by
  simp only [putUint64, toUint64, Fin.ofNat, List.cons.injEq, Fin.mk.injEq, and_true]
  refine ⟨?_, ?_, ?_, ?_, ?_, ?_, ?_, ?_⟩ <;> omega

/-- The frames of a concatenation of payload sequences. -/
theorem frames_append (ps qs : List (List Byte)) : frames (ps ++ qs) = frames ps ++ frames qs := by
  induction ps with
  | nil => rfl
  | cons p ps ih =>
    show frame p ++ frames (ps ++ qs) = frame p ++ frames ps ++ frames qs
    rw [ih, List.append_assoc]

theorem frames_split (ps : List (List Byte)) (i : Nat) (hi : i < ps.length) :
    frames ps = frames (ps.take i) ++ frame (ps.getD i []) ++ frames (ps.drop (i + 1)) := by
  have h1 : ps = ps.take i ++ (ps.getD i [] :: ps.drop (i + 1)) := by
    have hd : ps.drop i = ps[i] :: ps.drop (i + 1) := List.drop_eq_getElem_cons hi
    have hg : ps.getD i [] = ps[i] := by
      rw [List.getD_eq_getElem?_getD, List.getElem?_eq_getElem hi]; rfl
    rw [hg, ← hd, List.take_append_drop]
  conv => lhs; rw [h1]
  rw [frames_append]
  simp only [frames, List.append_assoc]

theorem store.appendAll_after (ps : List (List Byte)) : ∀ (s : store), s.File.after = [] →
    (s.appendAll ps).2.File.after = [] := by
  induction ps with
  | nil => intro s hat; exact hat
  | cons p ps ih => intro s hat; exact ih (s.Append p).2 (store.Append_after s p hat)

/-- Appending a sequence of payloads when every `Append` returns a `nil`
error on a store whose handle writes at the end of the file, whatever the file
would do on other writes. -/
theorem store.appendAll_ok (ps : List (List Byte)) : ∀ (s : store), s.File.after = [] →
    (∀ r ∈ (s.appendAll ps).1, r.2.2 = none) → s.size + (frames ps).length < 2 ^ 64 →
      (s.appendAll ps).2.size = s.size + (frames ps).length
        ∧ (s.appendAll ps).2.content = s.content ++ frames ps
        ∧ ∀ i, i < ps.length →
            ((s.appendAll ps).1.getD i (0, 0, none)).2.1 = s.size + (frames (ps.take i)).length := by
  induction ps with
  | nil =>
    intro s _ _ _
    exact ⟨rfl, by simp [store.appendAll, frames], fun i hi => absurd hi (by simp)⟩
  | cons p ps ih =>
    intro s hat hall hfit
    have hfl : (frames (p :: ps)).length = 8 + p.length + (frames ps).length := by
      simp [frames, frame_length]
    have hok : (s.Append p).1.2.2 = none := hall _ (by simp [store.appendAll])
    obtain ⟨-, a2, a3, a4, -⟩ := store.Append_ok s p hok hat
    have hu : toUint64 (p.length + 8) = p.length + 8 := toUint64_of_lt _ (by omega)
    have hsz1 : (s.Append p).2.size = s.size + (8 + p.length) := by
      rw [a3, hu, toUint64_of_lt _ (by omega)]; omega
    obtain ⟨i1, i2, i3⟩ := ih (s.Append p).2 (store.Append_after s p hat)
      (fun r hr => hall r (by simp only [store.appendAll, List.mem_cons]; exact Or.inr hr))
      (by rw [hsz1]; omega)
    refine ⟨?_, ?_, ?_⟩
    · simp only [store.appendAll]; rw [i1, hsz1, hfl]; omega
    · simp only [store.appendAll, frames]; rw [i2, a4, List.append_assoc]
    · intro i hi
      cases i with
      | zero => simp only [store.appendAll, List.getD_cons_zero, List.take_zero, frames]; rw [a2]; rfl
      | succ i =>
        have := i3 i (by simpa using hi)
        simp only [store.appendAll, List.getD_cons_succ, List.take_succ_cons, frames,
          List.length_append, frame_length]
        rw [this, hsz1]; omega

/-- A write that overfills a non-empty buffer on a file whose writes succeed:
the buffer is filled up and flushed to the file at the offset of the handle,
and the rest of `p` is buffered. -/
theorem Writer.Write_fill_flush (b : Writer) (f : File) (p : List Byte)
    (he : b.err = none) (hb : b.buf.length ≠ 0) (hp : p.length > b.Available)
    (hrest : p.length - b.Available ≤ defaultBufSize) (hf : f.script = []) :
    b.Write f p = ((p.length, none), { buf := p.drop b.Available, err := none },
      f.put (b.buf ++ p.take b.Available) []) := by
  have hmin : min b.Available p.length = b.Available := by omega
  have hne : (b.buf ++ List.take b.Available p).length ≠ 0 := by
    simp only [List.length_append]; omega
  have hfl : ({ b with buf := b.buf ++ p.take b.Available } : Writer).Flush f
      = (none, { buf := [], err := none }, f.put (b.buf ++ p.take b.Available) []) := by
    unfold Writer.Flush
    simp only [he, hne, if_false, File.Write, hf]
    simp
  have hA : ({ buf := [], err := none } : Writer).Available = defaultBufSize := rfl
  have hdone : ¬ ((p.drop b.Available).length
      > ({ buf := [], err := none } : Writer).Available
        ∧ ({ buf := [], err := none } : Writer).err = none) := by
    rw [hA, List.length_drop]
    omega
  unfold Writer.Write
  have hloop : Writer.writeLoop (p.length + 2) b f p 0
      = ({ buf := [], err := none }, f.put (b.buf ++ p.take b.Available) [],
          p.drop b.Available, 0 + b.Available) := by
    rw [Writer.writeLoop, if_pos ⟨hp, he⟩, if_neg (by simpa [Writer.Buffered] using hb)]
    simp only [hmin, hfl]
    rw [Writer.writeLoop_done _ _ _ _ _ hdone]
  rw [hloop]
  have hmin2 : min ({ buf := [], err := none } : Writer).Available (p.length - b.Available)
      = p.length - b.Available := by
    rw [hA]
    omega
  have hsum : 0 + b.Available + (p.length - b.Available) = p.length := by omega
  simp only [List.nil_append, List.length_drop, hmin2, hsum]
  rw [List.take_of_length_le (by rw [List.length_drop])]

/-- The overwriting scenario: a 4089-byte payload appended to a store opened on
a 13-byte file whose handle stands at offset 0. The length is buffered, the
payload overfills the buffer, and the flush inside `Append` writes 4096 bytes
over the start of the file; `Append` returns no error. -/
theorem store.Append_reopened :
    ((newStore reopenedFile).Append bigPayload).1 = (4097, 13, none)
    ∧ ((newStore reopenedFile).Append bigPayload).2.File.data
        = putUint64 4089 ++ List.take 4088 bigPayload
    ∧ ((newStore reopenedFile).Append bigPayload).2.buf.buf = List.drop 4088 bigPayload := by
  have h1 : NewWriter.Write reopenedFile (putUint64 4089)
      = ((8, none), { buf := putUint64 4089, err := none }, reopenedFile) := by decide
  have hl : bigPayload.length = 4089 := List.length_replicate _ _
  have ha : ({ buf := putUint64 4089, err := none } : Writer).Available = 4088 := by decide
  have h2 := Writer.Write_fill_flush { buf := putUint64 4089, err := none } reopenedFile
    bigPayload rfl (by decide) (by rw [hl]; decide) (by rw [hl]; decide) rfl
  rw [ha] at h2
  have hu : toUint64 4089 = 4089 := by decide
  have ht : (List.take 4088 bigPayload).length = 4088 := by
    rw [List.length_take, hl]; decide
  have hd : List.drop (putUint64 4089 ++ List.take 4088 bigPayload).length reopenedFile.after
      = [] := by
    rw [List.length_append, ht]
    decide
  simp only [store.Append, binaryWrite, newStore, hl, hu, h1, h2, File.put, File.data, hd,
    List.append_nil]
  refine ⟨by decide, ?_, trivial⟩
  show reopenedFile.before ++ _ = _
  rfl

/-- C11 (as amended). Store on-disk framing and append-only frame: on a store
whose file handle writes at the end of the file (an empty file, or a file
opened with `O_APPEND`), after an `Append(p)` whose writes succeed (it returns
a `nil` error) the logical content of the store (file bytes followed by
buffered bytes) is the content before the call, followed by the 8-byte
big-endian encoding of `len(p)`, followed by `p`; every byte that was there
before is still at its place. -/
theorem C11_append_frames_content (s : store) (p : List Byte)
    (hend : s.File.after = []) (hok : (s.Append p).1.2.2 = none) :
    (s.Append p).2.content = s.content ++ putUint64 p.length ++ p
      ∧ (putUint64 p.length).length = 8
      ∧ (p.length < 2 ^ 64 → uint64 (putUint64 p.length) = p.length)
      ∧ ∀ k, k < s.content.length → (s.Append p).2.content[k]? = s.content[k]? := by
  have h := (store.Append_ok s p hok hend).2.2.2.1
  rw [frame, putUint64_toUint64, ← List.append_assoc] at h
  refine ⟨h, rfl, uint64_putUint64 _, fun k hk => ?_⟩
  rw [h, List.append_assoc, List.getElem?_append_left hk]

theorem C11_witness :
    ((newStore emptyFile).Append hello).2.content
        = (newStore emptyFile).content ++ putUint64 hello.length ++ hello
      ∧ (putUint64 hello.length).length = 8
      ∧ (hello.length < 2 ^ 64 → uint64 (putUint64 hello.length) = hello.length)
      ∧ ∀ k, k < (newStore emptyFile).content.length →
          ((newStore emptyFile).Append hello).2.content[k]? = (newStore emptyFile).content[k]? :=
  C11_append_frames_content (newStore emptyFile) hello (by decide) (by decide)

/-- C11 as stated fails: on a store opened on a 13-byte file whose handle
stands at offset 0 (the file was opened without `O_APPEND`), the `Append` of
the 4089-byte payload returns no error, yet the flush inside it wrote over the
start of the file: the byte at index 8 was 104 and is 0 afterwards, and the
content is not the content before the call followed by the new frame. -/
theorem C11_counterexample :
    ((newStore reopenedFile).Append bigPayload).1.2.2 = none
      ∧ (newStore reopenedFile).content[8]? = some 104
      ∧ ((newStore reopenedFile).Append bigPayload).2.content[8]? = some 0
      ∧ ((newStore reopenedFile).Append bigPayload).2.content
          ≠ (newStore reopenedFile).content ++ putUint64 bigPayload.length ++ bigPayload := by
  obtain ⟨h1, h2, h3⟩ := store.Append_reopened
  have h0 : (newStore reopenedFile).content[8]? = some 104 := by decide
  have h8 : ((newStore reopenedFile).Append bigPayload).2.content[8]? = some 0 := by
    rw [store.content, h2, h3, List.append_assoc, List.take_append_drop,
      List.getElem?_append_right (by decide)]
    show (List.replicate 4089 (0 : Byte))[0]? = some 0
    rw [List.getElem?_replicate]
    rfl
  refine ⟨by rw [h1], h0, h8, fun h => ?_⟩
  have hk := congrArg (fun l : List Byte => l[8]?) h
  simp only at hk
  rw [h8, List.append_assoc, List.getElem?_append_left (by decide), h0] at hk
  revert hk
  decide

/-- C17. Store size after k appends: on a store opened by `newStore` on an
empty file, after appends of the payloads `ps` that all returned a `nil`
error, the size is the sum of `8 + len` over the payloads, and the position
returned by the `i`-th `Append` is the sum of `8 + len` over the payloads
before it (the total fitting the `uint64` counter). -/
theorem C17_store_size_after_appends (f : File) (ps : List (List Byte)) (i : Nat)
    (hempty : f.data = [])
    (hall : ∀ r ∈ ((newStore f).appendAll ps).1, r.2.2 = none)
    (hfit : (ps.map (fun p => 8 + p.length)).sum < 2 ^ 64) (hi : i < ps.length) :
    ((newStore f).appendAll ps).2.size = (ps.map (fun p => 8 + p.length)).sum
      ∧ (((newStore f).appendAll ps).1.getD i (0, 0, none)).2.1
          = ((ps.take i).map (fun p => 8 + p.length)).sum := by
  have hs0 : (newStore f).size = 0 := by simp [newStore, hempty, toUint64]
  obtain ⟨a1, -, a3⟩ := store.appendAll_ok ps (newStore f) (File.after_of_data_nil f hempty) hall
    (by rw [hs0, frames_length]; omega)
  rw [a1, a3 i hi, hs0, frames_length, frames_length]
  simp

theorem C17_witness :
    ((newStore emptyFile).appendAll [hello, hi]).2.size
        = ([hello, hi].map (fun p => 8 + p.length)).sum
      ∧ (((newStore emptyFile).appendAll [hello, hi]).1.getD 1 (0, 0, none)).2.1
          = (([hello, hi].take 1).map (fun p => 8 + p.length)).sum :=
  C17_store_size_after_appends emptyFile [hello, hi] 1 (by decide) (by decide) (by decide)
    (by decide)

/-- A positional read sees the bytes of the file, not the offset of the handle. -/
theorem File.ReadAt_data (f : File) (n : Nat) (off : Int) :
    File.ReadAt { before := f.data, after := [], script := [] } n off = f.ReadAt n off := by
  simp only [File.ReadAt, File.data, List.append_nil]

/-- `Read` is the flush followed by the reads of `readRecord` on the file. -/
theorem store.Read_eq (s : store) (pos : Nat) :
    (s.Read pos).1
      = match (s.buf.Flush s.File).1 with
        | some e => ([], some e)
        | none => readRecord (s.buf.Flush s.File).2.2.data pos := by
  unfold store.Read readRecord
  simp only [File.ReadAt_data]
  cases (s.buf.Flush s.File).1 with
  | some e => rfl
  | none =>
    simp only
    repeat' split
    all_goals rfl

/-- The reads of `Read` on a file of `F < 2^63` bytes, by cases on where the
8-byte length at `pos` and the `L` payload bytes it announces lie: outside the
file the result is an error and no bytes, except that a length `L ≥ 2^63`
makes `make` panic; inside the file the result is the `L` bytes after the
length. -/
theorem readRecord_spec (data : List Byte) (pos : Nat) (hF : data.length < 2 ^ 63)
    (hpos : pos < 2 ^ 64) :
    (data.length < pos + 8 →
        (readRecord data pos).1 = []
          ∧ ((readRecord data pos).2 = some Error.EOF
              ∨ (readRecord data pos).2 = some Error.negativeOffset))
      ∧ (pos + 8 ≤ data.length →
          pos + 8 + uint64 ((data.drop pos).take 8) ≤ data.length →
            readRecord data pos
              = ((data.drop (pos + 8)).take (uint64 ((data.drop pos).take 8)), none))
      ∧ (pos + 8 ≤ data.length →
          data.length < pos + 8 + uint64 ((data.drop pos).take 8) →
            (readRecord data pos).1 = []
              ∧ (uint64 ((data.drop pos).take 8) < 2 ^ 63 →
                  (readRecord data pos).2 = some Error.EOF)
              ∧ (2 ^ 63 ≤ uint64 ((data.drop pos).take 8) →
                  (readRecord data pos).2 = some Error.panic)) := by
  refine ⟨fun h => ?_, fun h1 h2 => ?_, fun h1 h2 => ?_⟩
  · unfold readRecord File.ReadAt
    by_cases hneg : toInt64 pos < 0
    · simp [hneg]
    · have hp : pos < 2 ^ 63 := by
        by_contra hc
        apply hneg
        unfold toInt64
        rw [if_neg (by omega)]
        omega
      have hshort : (List.take 8 (List.drop pos data)).length < 8 := by
        rw [List.length_take, List.length_drop]; omega
      simp only [File.data, List.append_nil, lenWidth, toInt64_of_lt pos hp,
        show ¬ ((pos : Int) < 0) by omega,
        show ¬ (8 = 0) by omega, Int.toNat_ofNat, hshort, if_true, if_false]
      simp
  · have hp : pos < 2 ^ 63 := by omega
    have hfull : ¬ (List.take 8 (List.drop pos data)).length < 8 := by
      rw [List.length_take, List.length_drop]; omega
    have hL : ¬ (2 ^ 63 ≤ uint64 (List.take 8 (List.drop pos data))) := by omega
    have h8 : toUint64 (pos + 8) = pos + 8 := toUint64_of_lt _ (by omega)
    unfold readRecord File.ReadAt
    simp only [File.data, List.append_nil, lenWidth, toInt64_of_lt pos hp, h8,
      toInt64_of_lt (pos + 8) (by omega),
      Int.toNat_ofNat, hfull, if_false, hL,
      show ¬ ((pos : Int) < 0) by omega, show ¬ (((pos + 8 : Nat) : Int) < 0) by omega,
      show ¬ (8 = 0) by omega]
    by_cases hz : uint64 (List.take 8 (List.drop pos data)) = 0
    · simp [hz]
    · have hfull2 : ¬ (List.take (uint64 (List.take 8 (List.drop pos data)))
          (List.drop (pos + 8) data)).length < uint64 (List.take 8 (List.drop pos data)) := by
        rw [List.length_take, List.length_drop]; omega
      simp only [hz, if_false, hfull2]
  · have hp : pos < 2 ^ 63 := by omega
    have hfull : ¬ (List.take 8 (List.drop pos data)).length < 8 := by
      rw [List.length_take, List.length_drop]; omega
    have h8 : toUint64 (pos + 8) = pos + 8 := toUint64_of_lt _ (by omega)
    have hz : ¬ uint64 (List.take 8 (List.drop pos data)) = 0 := by omega
    have hshort : (List.take (uint64 (List.take 8 (List.drop pos data)))
        (List.drop (pos + 8) data)).length < uint64 (List.take 8 (List.drop pos data)) := by
      rw [List.length_take, List.length_drop]; omega
    unfold readRecord File.ReadAt
    simp only [File.data, List.append_nil, lenWidth, toInt64_of_lt pos hp, h8,
      toInt64_of_lt (pos + 8) (by omega),
      Int.toNat_ofNat, hfull, if_false,
      show ¬ ((pos : Int) < 0) by omega, show ¬ (((pos + 8 : Nat) : Int) < 0) by omega,
      show ¬ (8 = 0) by omega, hz, hshort, if_true]
    by_cases hL : 2 ^ 63 ≤ uint64 (List.take 8 (List.drop pos data))
    · rw [if_pos hL]
      exact ⟨rfl, fun h => by omega, fun _ => rfl⟩
    · rw [if_neg hL]
      exact ⟨rfl, fun _ => rfl, fun h => by omega⟩

/-- C12. Store Read out of range, evaluated where the code departs from it:
after `Append` of the eight bytes `0xFF` on a fresh store the content has
length 16; at position 8 the 8-byte prefix lies inside the file and announces
`L = 2^64 - 1` bytes, which do not, so `Read(8)` should return an error; the
code allocates `make([]byte, L)` before reading and panics. -/
theorem C12_read_huge_length_panics :
    ((newStore emptyFile).Append ffPayload).1 = (16, 0, none)
      ∧ ((newStore emptyFile).Append ffPayload).2.content.length = 16
      ∧ uint64 ((((newStore emptyFile).Append ffPayload).2.content.drop 8).take 8) = 2 ^ 64 - 1
      ∧ (((newStore emptyFile).Append ffPayload).2.Read 8).1 = ([], some Error.panic) := by
  decide

/-- A flush that returns a `nil` error on a handle that writes at the end of
the file leaves the buffer empty and all the bytes in the file. -/
theorem Writer.Flush_ok (b : Writer) (f : File) (hat : f.after = [])
    (h : (b.Flush f).1 = none) :
    (b.Flush f).2.1 = { buf := [], err := none } ∧ (b.Flush f).2.2.data = f.data ++ b.buf := by
  have hc := Writer.Flush_content b f hat
  have hw : (b.Flush f).2.1 = { buf := [], err := none } := by
    unfold Writer.Flush at h ⊢
    cases he : b.err with
    | some e => rw [he] at h; cases h
    | none =>
      rw [he] at h
      by_cases hl : b.buf.length = 0
      · rw [if_pos hl]
        have : b.buf = [] := List.length_eq_zero.mp hl
        cases b
        simp_all
      · rw [if_neg hl] at h ⊢
        simp only at h ⊢
        split
        · rename_i e hx; rw [hx] at h; cases h
        · rfl
  rw [hw] at hc
  exact ⟨hw, by simpa using hc⟩

/-- With an empty buffer and no sticky error `Read` makes no write: it is the
reads of `readRecord` on the bytes of the file. -/
theorem store.Read_empty_buf (s : store) (pos : Nat) (hb : s.buf = NewWriter) :
    (s.Read pos).1 = readRecord s.File.data pos := by
  rw [store.Read_eq, hb]
  rfl

/-- Reading the record framed at the end of `pre`. -/
theorem readRecord_frame (pre p post : List Byte)
    (hlen : (pre ++ frame p ++ post).length < 2 ^ 63) :
    readRecord (pre ++ frame p ++ post) pre.length = (p, none) := by
  have h := store.Read_frame
    { File := { before := pre ++ frame p ++ post, after := [], script := [] },
      buf := NewWriter, size := 0 }
    pre p post rfl rfl rfl (by simp [store.content, File.data, NewWriter])
    (by simpa [store.content, File.data, NewWriter] using hlen)
  rw [store.Read_empty_buf _ _ rfl] at h
  simpa only [File.data, List.append_nil] using h

/-- C18. Store reopen durability: on a store opened on an empty file, after
appends of the payloads `ps` that all returned a `nil` error and a `Close`
that returned a `nil` error, the file holds exactly the appended frames, its
length is the size of the store and nothing is left in the buffer; `newStore`
on that file, through any handle `g` on its bytes (wherever its offset is and
whatever its later writes would do), gives a store of the same size on which
`Read` at the position returned by the `i`-th `Append` returns the `i`-th
payload. -/
theorem C18_store_reopen_durability (f : File) (ps : List (List Byte)) (i : Nat)
    (hempty : f.data = [])
    (hall : ∀ r ∈ ((newStore f).appendAll ps).1, r.2.2 = none)
    (hclose : ((newStore f).appendAll ps).2.Close.1 = none)
    (hfit : (ps.map (fun p => 8 + p.length)).sum < 2 ^ 63) (hi : i < ps.length) :
    ((newStore f).appendAll ps).2.Close.2.File.data = frames ps
      ∧ ((newStore f).appendAll ps).2.Close.2.File.data.length
          = ((newStore f).appendAll ps).2.Close.2.size
      ∧ ((newStore f).appendAll ps).2.Close.2.buf.buf = []
      ∧ (newStore ((newStore f).appendAll ps).2.Close.2.File).size
          = ((newStore f).appendAll ps).2.Close.2.size
      ∧ ((newStore ((newStore f).appendAll ps).2.Close.2.File).Read
            (((newStore f).appendAll ps).1.getD i (0, 0, none)).2.1).1 = (ps.getD i [], none)
      ∧ ∀ g : File, g.data = ((newStore f).appendAll ps).2.Close.2.File.data →
          (newStore g).size = ((newStore f).appendAll ps).2.Close.2.size
            ∧ ((newStore g).Read (((newStore f).appendAll ps).1.getD i (0, 0, none)).2.1).1
                = (ps.getD i [], none) := by
  have hfl := frames_length ps
  have hat := File.after_of_data_nil f hempty
  have hs0 : (newStore f).size = 0 := by simp [newStore, hempty, toUint64]
  have hc0 : (newStore f).content = [] := by simp [newStore, store.content, NewWriter, hempty]
  obtain ⟨a1, a2, a3⟩ := store.appendAll_ok ps (newStore f) hat hall (by rw [hs0]; omega)
  have hat2 : ((newStore f).appendAll ps).2.File.after = [] :=
    store.appendAll_after ps (newStore f) hat
  rw [hs0, Nat.zero_add] at a1
  rw [hc0, List.nil_append] at a2
  obtain ⟨w1, w2⟩ := Writer.Flush_ok _ _ hat2 hclose
  have hdata : ((newStore f).appendAll ps).2.Close.2.File.data = frames ps := by
    show (((newStore f).appendAll ps).2.buf.Flush ((newStore f).appendAll ps).2.File).2.2.data = _
    rw [w2]; exact a2
  have hsize : ((newStore f).appendAll ps).2.Close.2.size = (frames ps).length := a1
  have hpos := a3 i hi
  rw [hs0, Nat.zero_add] at hpos
  have hbuf : ((newStore f).appendAll ps).2.Close.2.buf.buf = [] := by
    show (((newStore f).appendAll ps).2.buf.Flush ((newStore f).appendAll ps).2.File).2.1.buf = _
    rw [w1]
  have hany : ∀ g : File, g.data = ((newStore f).appendAll ps).2.Close.2.File.data →
      (newStore g).size = ((newStore f).appendAll ps).2.Close.2.size
        ∧ ((newStore g).Read (((newStore f).appendAll ps).1.getD i (0, 0, none)).2.1).1
            = (ps.getD i [], none) := by
    intro g hg
    rw [hdata] at hg
    refine ⟨?_, ?_⟩
    · rw [hsize]
      simp only [newStore, hg]
      exact toUint64_of_lt _ (by omega)
    · rw [store.Read_empty_buf _ _ rfl, hpos]
      show readRecord g.data _ = _
      rw [hg]
      have hsp := frames_split ps i hi
      have hr := readRecord_frame (frames (ps.take i)) (ps.getD i []) (frames (ps.drop (i + 1)))
        (by rw [← hsp]; omega)
      rw [← hsp] at hr
      exact hr
  exact ⟨hdata, by rw [hdata, hsize], hbuf, (hany _ rfl).1, (hany _ rfl).2, hany⟩

theorem C18_witness :
    ((newStore emptyFile).appendAll [hello, hi]).2.Close.2.File.data = frames [hello, hi]
      ∧ ((newStore emptyFile).appendAll [hello, hi]).2.Close.2.File.data.length
          = ((newStore emptyFile).appendAll [hello, hi]).2.Close.2.size
      ∧ ((newStore emptyFile).appendAll [hello, hi]).2.Close.2.buf.buf = []
      ∧ (newStore ((newStore emptyFile).appendAll [hello, hi]).2.Close.2.File).size
          = ((newStore emptyFile).appendAll [hello, hi]).2.Close.2.size
      ∧ ((newStore ((newStore emptyFile).appendAll [hello, hi]).2.Close.2.File).Read
            (((newStore emptyFile).appendAll [hello, hi]).1.getD 1 (0, 0, none)).2.1).1
          = ([hello, hi].getD 1 [], none)
      ∧ ∀ g : File, g.data = ((newStore emptyFile).appendAll [hello, hi]).2.Close.2.File.data →
          (newStore g).size = ((newStore emptyFile).appendAll [hello, hi]).2.Close.2.size
            ∧ ((newStore g).Read
                  (((newStore emptyFile).appendAll [hello, hi]).1.getD 1 (0, 0, none)).2.1).1
                = ([hello, hi].getD 1 [], none) :=
  C18_store_reopen_durability emptyFile [hello, hi] 1 (by decide) (by decide) (by decide)
    (by decide) (by decide)

theorem index.room_of_not_maxed (i : index) (hm : i.isMaxed = false)
    (hcap : i.mmap.length < 2 ^ 63) (hsz : i.size < 2 ^ 63) : i.size + 12 ≤ i.mmap.length := by
  unfold index.isMaxed at hm
  rw [toUint64_of_lt _ (by omega), entWidth_eq, toUint64_of_lt _ (by omega)] at hm
  simpa using hm

/-- C13. Index Write encoding and frame: on an index that is not maxed
(its mapped length and size being below `2^63`, as for every index the code
builds), `Write(off, pos)` returns no error, stores the 4-byte big-endian
encoding of `off` at bytes `[size, size+4)` and the 8-byte big-endian encoding
of `pos` at `[size+4, size+12)`, advances `size` by exactly 12 and leaves
every other byte of the mapped region, and its length, unchanged. -/
theorem C13_index_write_encoding (i : index) (off pos : Nat) (hm : i.isMaxed = false)
    (hcap : i.mmap.length < 2 ^ 63) (hsz : i.size < 2 ^ 63) :
    (i.Write off pos).1 = none
      ∧ (i.Write off pos).2.size = i.size + 12
      ∧ (i.Write off pos).2.mmap.length = i.mmap.length
      ∧ ((i.Write off pos).2.mmap.drop i.size).take 4 = putUint32 off
      ∧ ((i.Write off pos).2.mmap.drop (i.size + 4)).take 8 = putUint64 pos
      ∧ (off < 2 ^ 32 → uint32 (putUint32 off) = off)
      ∧ (pos < 2 ^ 64 → uint64 (putUint64 pos) = pos)
      ∧ ∀ k, k < i.size ∨ i.size + 12 ≤ k → (i.Write off pos).2.mmap[k]? = i.mmap[k]? := by
  have hroom := index.room_of_not_maxed i hm hcap hsz
  have hw := index.Write_ok i off pos hcap hroom
  have htl : (List.take i.size i.mmap).length = i.size := by
    rw [List.length_take]; omega
  rw [hw]
  simp only
  refine ⟨trivial, trivial, ?_, ?_, ?_, uint32_putUint32 off, uint64_putUint64 pos, ?_⟩
  · simp only [List.length_append, htl, encodeEntry_length, List.length_drop]
    omega
  · rw [List.append_assoc, List.drop_left' htl, encodeEntry, List.append_assoc,
      List.take_left' (putUint32_length _)]
  · rw [encodeEntry, ← List.append_assoc, List.append_assoc,
      List.drop_left' (by rw [List.length_append, htl, putUint32_length]),
      List.take_left' (putUint64_length _)]
  · intro k hk
    rcases hk with hk | hk
    · rw [List.append_assoc, List.getElem?_append_left (by rw [htl]; exact hk),
        List.getElem?_take_of_lt hk]
    · rw [List.getElem?_append_right
          (by simp only [List.length_append, htl, encodeEntry_length]; exact hk),
        List.getElem?_drop]
      simp only [List.length_append, htl, encodeEntry_length]
      congr 1
      omega

theorem C13_witness :
    (freshIndex24.Write 7 99).1 = none
      ∧ (freshIndex24.Write 7 99).2.size = freshIndex24.size + 12
      ∧ (freshIndex24.Write 7 99).2.mmap.length = freshIndex24.mmap.length
      ∧ ((freshIndex24.Write 7 99).2.mmap.drop freshIndex24.size).take 4 = putUint32 7
      ∧ ((freshIndex24.Write 7 99).2.mmap.drop (freshIndex24.size + 4)).take 8 = putUint64 99
      ∧ (7 < 2 ^ 32 → uint32 (putUint32 7) = 7)
      ∧ (99 < 2 ^ 64 → uint64 (putUint64 99) = 99)
      ∧ ∀ k, k < freshIndex24.size ∨ freshIndex24.size + 12 ≤ k →
          (freshIndex24.Write 7 99).2.mmap[k]? = freshIndex24.mmap[k]? :=
  C13_index_write_encoding freshIndex24 7 99 (by decide) (by decide) (by decide)

/-- What `newIndex` returns when it succeeds. -/
theorem newIndex_ok (f : List Byte) (c : Config) (i0 : index) (h : newIndex f c = Except.ok i0) :
    i0.size = toUint64 f.length
      ∧ i0.mmap = truncate f (toUint64 c.Segment.MaxIndexBytes)
      ∧ 0 < toUint64 c.Segment.MaxIndexBytes ∧ toUint64 c.Segment.MaxIndexBytes < 2 ^ 63 := by
  unfold newIndex at h
  by_cases h1 : toInt64 c.Segment.MaxIndexBytes < 0
  · rw [if_pos h1] at h; cases h
  · rw [if_neg h1] at h
    simp only at h
    by_cases h2 : (truncate f (toUint64 c.Segment.MaxIndexBytes)).length = 0
    · rw [if_pos h2] at h; cases h
    · rw [if_neg h2] at h
      simp only [Except.ok.injEq] at h
      subst h
      refine ⟨rfl, rfl, ?_, ?_⟩
      · by_contra hz
        apply h2
        have : toUint64 c.Segment.MaxIndexBytes = 0 := by omega
        rw [this]
        simp [truncate]
      · unfold toInt64 at h1
        unfold toUint64
        by_contra hn
        rw [if_neg hn] at h1
        omega

theorem truncate_length (f : List Byte) (n : Nat) : (truncate f n).length = n := by
  simp only [truncate, List.length_append, List.length_take, List.length_replicate]
  omega

/-- A `Write` leaves the size alone or advances it by exactly 12, and never
changes the length of the mapped region. -/
theorem index.Write_size (i : index) (off pos : Nat) (hsz : i.size < 2 ^ 64) :
    ((i.Write off pos).2.size = i.size ∨ (i.Write off pos).2.size = i.size + 12)
      ∧ (i.Write off pos).2.size < 2 ^ 64 := by
  unfold index.Write
  by_cases hm : i.isMaxed = true
  · rw [if_pos hm]; exact ⟨Or.inl rfl, hsz⟩
  · rw [if_neg hm]
    cases h1 : slice i.mmap i.size (toUint64 (i.size + offWidth)) with
    | none => exact ⟨Or.inl rfl, hsz⟩
    | some a =>
      cases h2 : slice i.mmap (toUint64 (i.size + offWidth)) (toUint64 (i.size + entWidth)) with
      | none => exact ⟨Or.inl rfl, hsz⟩
      | some b =>
        simp only
        unfold slice at h1 h2
        have c1 : i.size ≤ toUint64 (i.size + offWidth) := by
          by_contra hn
          rw [if_neg (fun h => hn h.1)] at h1
          cases h1
        have c2 : toUint64 (i.size + offWidth) ≤ toUint64 (i.size + entWidth) := by
          by_contra hn
          rw [if_neg (fun h => hn h.1)] at h2
          cases h2
        simp only [toUint64, offWidth, entWidth, posWidth] at c1 c2 ⊢
        omega

/-- C15 (as amended). Index size invariant: for an index produced by
`newIndex` on a backing file whose length is a multiple of 12 (a new empty
file, or a file left by `Close`), after any sequence of `Write` and `Read`
calls the size is a multiple of 12. -/
theorem C15_index_size_multiple_of_12 (f : List Byte) (c : Config) (i0 : index)
    (cs : List IndexCall) (hnew : newIndex f c = Except.ok i0)
    (hf : 12 ∣ f.length) (hlen : f.length < 2 ^ 64) :
    12 ∣ (i0.run cs).size := by
  have h0 : i0.size = f.length := by
    rw [(newIndex_ok f c i0 hnew).1]; exact toUint64_of_lt _ hlen
  have key : ∀ (cs : List IndexCall) (i : index), i.size < 2 ^ 64 → 12 ∣ i.size →
      12 ∣ (i.run cs).size := by
    intro cs
    induction cs with
    | nil => intro i _ h; exact h
    | cons c cs ih =>
      intro i hsz hd
      cases c with
      | Read sel => exact ih i hsz hd
      | Write off pos =>
        obtain ⟨h1, h2⟩ := index.Write_size i off pos hsz
        apply ih (i.Write off pos).2 h2
        rcases h1 with h1 | h1
        · rw [h1]; exact hd
        · rw [h1]; exact (Nat.dvd_add_right hd).mpr (dvd_refl 12)
  exact key cs i0 (by rw [h0]; exact hlen) (by rw [h0]; exact hf)

theorem C15_witness :
    12 ∣ (freshIndex24.run [IndexCall.Write 0 0, IndexCall.Read 0, IndexCall.Write 1 13,
      IndexCall.Write 2 23]).size :=
  C15_index_size_multiple_of_12 [] (configOf 24) freshIndex24
    [IndexCall.Write 0 0, IndexCall.Read 0, IndexCall.Write 1 13, IndexCall.Write 2 23]
    (by rfl) (by decide) (by decide)

/-- C15 as stated fails: `newIndex` on a pre-existing backing file of 5 bytes
gives an index of size 5, which is not a multiple of 12. -/
theorem C15_counterexample :
    newIndex raggedFile (configOf 24)
        = Except.ok { mmap := raggedFile ++ List.replicate 19 0, size := 5 }
      ∧ ¬ (12 ∣ ({ mmap := raggedFile ++ List.replicate 19 0, size := 5 } : index).size) :=
  ⟨by rfl, by decide⟩

/-- C16 (as amended). isMaxed characterisation: on every index whose mapped
length and size are below `2^63`, `isMaxed()` is true if and only if
`capacity < size + 12`; this is `capacity - size < 12` in unsigned 64-bit
arithmetic when `size ≤ capacity`, while for `size > capacity` the index is
maxed although the unsigned difference wraps around to a value of at least
12. -/
theorem C16_isMaxed_characterisation (i : index) (hcap : i.mmap.length < 2 ^ 63)
    (hsz : i.size < 2 ^ 63) :
    (i.isMaxed = true ↔ i.mmap.length < i.size + 12)
      ∧ (i.size ≤ i.mmap.length →
          (i.isMaxed = true ↔ subUint64 i.mmap.length i.size < 12))
      ∧ (i.mmap.length < i.size →
          i.isMaxed = true ∧ ¬ (subUint64 i.mmap.length i.size < 12)) := by
  have hm : i.isMaxed = true ↔ i.mmap.length < i.size + 12 := by
    unfold index.isMaxed
    rw [toUint64_of_lt _ (by omega), entWidth_eq, toUint64_of_lt _ (by omega)]
    simp
  refine ⟨hm, fun hle => ?_, fun hlt => ⟨hm.mpr (by omega), ?_⟩⟩
  · rw [hm]
    unfold subUint64
    omega
  · unfold subUint64
    omega

theorem C16_witness :
    ((freshIndex24.Write 0 0).2.isMaxed = true
        ↔ (freshIndex24.Write 0 0).2.mmap.length < (freshIndex24.Write 0 0).2.size + 12)
      ∧ ((freshIndex24.Write 0 0).2.size ≤ (freshIndex24.Write 0 0).2.mmap.length →
          ((freshIndex24.Write 0 0).2.isMaxed = true
            ↔ subUint64 (freshIndex24.Write 0 0).2.mmap.length (freshIndex24.Write 0 0).2.size
                < 12))
      ∧ ((freshIndex24.Write 0 0).2.mmap.length < (freshIndex24.Write 0 0).2.size →
          (freshIndex24.Write 0 0).2.isMaxed = true
            ∧ ¬ (subUint64 (freshIndex24.Write 0 0).2.mmap.length
                  (freshIndex24.Write 0 0).2.size < 12)) :=
  C16_isMaxed_characterisation (freshIndex24.Write 0 0).2 (by decide) (by decide)

/-- C16 as stated fails: on the index that `newIndex` builds on a 36-byte file
with a capacity of 24 bytes, `isMaxed()` is true, while `capacity - size` in
unsigned 64-bit arithmetic is `2^64 - 12`, not below 12. -/
theorem C16_counterexample :
    newIndex oversizedFile (configOf 24) = Except.ok oversizedIndex
      ∧ oversizedIndex.isMaxed = true
      ∧ subUint64 oversizedIndex.mmap.length oversizedIndex.size = 2 ^ 64 - 12
      ∧ oversizedIndex.isMaxedSpec = false :=
  ⟨by rfl, by decide, by decide, by decide⟩

/-- C19. Index bounds safety, evaluated where the code departs from it:
`newIndex` on a pre-existing file of 36 bytes with `MaxIndexBytes = 24` gives
an index whose size (36) exceeds the length of the mapped region (24); on it
`Read(-1)` passes the check against `size` and slices `mmap[24:28]`, outside
the mapping: a run-time panic. -/
theorem C19_read_outside_mapping :
    newIndex oversizedFile (configOf 24) = Except.ok oversizedIndex
      ∧ oversizedIndex.mmap.length < oversizedIndex.size
      ∧ slice oversizedIndex.mmap 24 28 = none
      ∧ oversizedIndex.Read (-1) = (0, 0, some Error.panic)
      ∧ oversizedIndex.callPanics (IndexCall.Read (-1)) = true :=
  ⟨by rfl, by decide, by decide, by decide, by decide⟩

/-- On an index whose size is within the mapped region (of fewer than `2^63`
bytes) no call slices outside the mapping, and the size stays within the
region: this is the case of every index that `newIndex` builds on a file no
longer than `MaxIndexBytes`. -/
theorem index.call_in_bounds (i : index) (c : IndexCall) (hcap : i.mmap.length < 2 ^ 63)
    (hle : i.size ≤ i.mmap.length) :
    i.callPanics c = false ∧ (i.call c).mmap.length = i.mmap.length
      ∧ (i.call c).size ≤ (i.call c).mmap.length := by
  cases c with
  | Read sel =>
    refine ⟨?_, rfl, hle⟩
    simp only [index.callPanics, decide_eq_false_iff_not]
    by_cases hz : i.size = 0
    · unfold index.Read; rw [if_pos hz]; simp
    · have h := index.Read_spec i sel hle hz
      by_cases hin : 12 * i.selected sel + 12 ≤ i.size
      · rw [h.1 hin]; simp
      · rw [h.2 (by omega)]; simp
  | Write off pos =>
    simp only [index.callPanics, index.call, decide_eq_false_iff_not]
    by_cases hm : i.isMaxed = true
    · unfold index.Write
      rw [if_pos hm]
      exact ⟨by simp, rfl, hle⟩
    · have hroom := index.room_of_not_maxed i (by simpa using hm) hcap (by omega)
      rw [index.Write_ok i off pos hcap hroom]
      have htl : (List.take i.size i.mmap).length = i.size := by
        rw [List.length_take]; omega
      have hlen : (List.take i.size i.mmap ++ encodeEntry (off, pos)
          ++ List.drop (i.size + 12) i.mmap).length = i.mmap.length := by
        simp only [List.length_append, htl, encodeEntry_length, List.length_drop]
        omega
      exact ⟨by simp, hlen, by simp only [hlen]; exact hroom⟩

/-- The bounds are kept along any sequence of calls. -/
theorem index.run_in_bounds (cs : List IndexCall) : ∀ (i : index), i.mmap.length < 2 ^ 63 →
    i.size ≤ i.mmap.length →
      (i.run cs).mmap.length = i.mmap.length ∧ (i.run cs).size ≤ (i.run cs).mmap.length := by
  induction cs with
  | nil => intro i _ hle; exact ⟨rfl, hle⟩
  | cons c cs ih =>
    intro i hcap hle
    obtain ⟨-, h2, h3⟩ := index.call_in_bounds i c hcap hle
    obtain ⟨r1, r2⟩ := ih (i.call c) (by rw [h2]; exact hcap) h3
    exact ⟨by simp only [index.run]; rw [r1, h2], by simpa only [index.run] using r2⟩

/-- C14 (as amended). Index entries: in every index state reached from a
freshly created index by successful `Write` calls, entry `k` holds the
relative offset and the position passed to the `k`-th call (no gaps, no
overwrites), and the size is 12 times the number of calls; so the stored
offsets are `first, first + 1, ...` whenever the caller passes them in that
order. -/
theorem C14_index_entries_as_written (c : Config) (es : List (Nat × Nat)) (i0 : index)
    (k : Nat) (hnew : newIndex [] c = Except.ok i0)
    (hall : ∀ x ∈ (i0.writeAll es).1, x = none) (hk : k < es.length) :
    (i0.writeAll es).2.size = 12 * es.length
      ∧ entryAt (i0.writeAll es).2.mmap k
          = ((es.getD k (0, 0)).1 % 2 ^ 32, (es.getD k (0, 0)).2 % 2 ^ 64)
      ∧ ∀ first, first + es.length ≤ 2 ^ 32 → (es.getD k (0, 0)).1 = first + k →
          (entryAt (i0.writeAll es).2.mmap k).1 = first + k := by
  obtain ⟨n1, n2, n3, n4⟩ := newIndex_ok [] c i0 hnew
  have hlen : i0.mmap.length = toUint64 c.Segment.MaxIndexBytes := by
    rw [n2, truncate_length]
  have hsz0 : i0.size = 0 := by rw [n1]; rfl
  have hroom := index.writeAll_room es i0 (by rw [hlen]; exact n4) (by rw [hsz0]; omega) hall
  obtain ⟨-, -, a3, a4⟩ := index.writeAll_spec es i0 (by rw [hlen]; exact n4) hroom
  rw [hsz0, Nat.zero_add] at a3
  rw [hsz0, Nat.zero_add, List.take_zero, List.nil_append] at a4
  have he : entryAt (i0.writeAll es).2.mmap k
      = ((es.getD k (0, 0)).1 % 2 ^ 32, (es.getD k (0, 0)).2 % 2 ^ 64) := by
    rw [a4]; exact entryAt_encodeEntries es _ k hk
  refine ⟨a3, he, fun first hfit hoff => ?_⟩
  rw [he, hoff]
  exact Nat.mod_eq_of_lt (by omega)

theorem C14_witness :
    (freshIndex24.writeAll [(5, 0), (6, 13)]).2.size = 12 * [((5 : Nat), (0 : Nat)), (6, 13)].length
      ∧ entryAt (freshIndex24.writeAll [(5, 0), (6, 13)]).2.mmap 1
          = (([((5 : Nat), (0 : Nat)), (6, 13)].getD 1 (0, 0)).1 % 2 ^ 32,
             ([((5 : Nat), (0 : Nat)), (6, 13)].getD 1 (0, 0)).2 % 2 ^ 64)
      ∧ ∀ first, first + [((5 : Nat), (0 : Nat)), (6, 13)].length ≤ 2 ^ 32 →
          ([((5 : Nat), (0 : Nat)), (6, 13)].getD 1 (0, 0)).1 = first + 1 →
            (entryAt (freshIndex24.writeAll [(5, 0), (6, 13)]).2.mmap 1).1 = first + 1 :=
  C14_index_entries_as_written (configOf 24) [(5, 0), (6, 13)] freshIndex24 1 (by rfl)
    (by decide) (by decide)

/-- C14 as stated fails: on a fresh index the writes of `(5, 0)` and then
`(3, 13)` both succeed, and the stored relative offsets, read in entry-index
order, are 5 and 3: not increasing. -/
theorem C14_counterexample :
    newIndex [] (configOf 24) = Except.ok freshIndex24
      ∧ (freshIndex24.writeAll [(5, 0), (3, 13)]).1 = [none, none]
      ∧ (freshIndex24.writeAll [(5, 0), (3, 13)]).2.Read 0 = (5, 0, none)
      ∧ (freshIndex24.writeAll [(5, 0), (3, 13)]).2.Read 1 = (3, 13, none)
      ∧ ¬ (5 < 3) :=
  ⟨by rfl, by decide, by decide, by decide, by decide⟩

theorem stamp_length (rs : List Record) : ∀ base, (stamp base rs).length = rs.length := by
  induction rs with
  | nil => intro base; rfl
  | cons r rs ih => intro base; simp only [stamp, List.length_cons, ih]

theorem stamp_getD (rs : List Record) : ∀ (base j : Nat), j < rs.length →
    (stamp base rs).getD j { Value := [], Offset := 0 }
      = { Value := (rs.getD j { Value := [], Offset := 0 }).Value, Offset := base + j } := by
  induction rs with
  | nil => intro base j hj; simp at hj
  | cons r rs ih =>
    intro base j hj
    cases j with
    | zero => rfl
    | succ j =>
      simp only [stamp, List.getD_cons_succ]
      rw [ih (base + 1) j (by simpa using hj)]
      congr 1
      omega

/-- The log and the returned offsets after a sequence of appends. -/
theorem Log.appendAll_offsets (rs : List Record) : ∀ (c : Log),
    c.recoreds.length + rs.length < 2 ^ 64 →
      (c.appendAll rs).2.recoreds = c.recoreds ++ stamp c.recoreds.length rs
        ∧ ∀ j, j < rs.length →
            (c.appendAll rs).1.getD j (0, none) = (c.recoreds.length + j, none) := by
  induction rs with
  | nil => intro c _; exact ⟨by simp [Log.appendAll, stamp], fun j hj => absurd hj (by simp)⟩
  | cons r rs ih =>
    intro c hfit
    simp only [List.length_cons] at hfit
    have hu : toUint64 c.recoreds.length = c.recoreds.length := toUint64_of_lt _ (by omega)
    have hl : (c.Append r).2.recoreds.length = c.recoreds.length + 1 := by
      simp [Log.Append]
    obtain ⟨h1, h2⟩ := ih (c.Append r).2 (by rw [hl]; omega)
    constructor
    · simp only [Log.appendAll]
      rw [h1, hl]
      simp only [Log.Append, hu, stamp, List.append_assoc, List.singleton_append]
    · intro j hj
      cases j with
      | zero => simp only [Log.appendAll, List.getD_cons_zero, Log.Append, hu]; rfl
      | succ j =>
        simp only [Log.appendAll, List.getD_cons_succ]
        rw [h2 j (by simpa using hj), hl]
        congr 1
        omega

/-- C20. In-memory Log append/read: on a log created by `NewLog`, after the
appends of the records `rs` (fewer than `2^64`), the `i`-th `Append` returned
offset `i` with no error whatever the `Offset` field passed in; `Read(o)`
succeeds exactly when `o < k` and then returns the record with the `o`-th
`Value` and `Offset` `o`; `Read(o)` for `o ≥ k` returns the empty record and
`ErrOffSetNotFound`. -/
theorem C20_log_append_read (rs : List Record) (o : Nat) (hlen : rs.length < 2 ^ 64) :
    (o < rs.length →
        (NewLog.appendAll rs).1.getD o (0, none) = (o, none)
          ∧ (NewLog.appendAll rs).2.Read o
              = ({ Value := (rs.getD o { Value := [], Offset := 0 }).Value, Offset := o }, none))
      ∧ (rs.length ≤ o →
          (NewLog.appendAll rs).2.Read o
            = ({ Value := [], Offset := 0 }, some LogError.ErrOffSetNotFound))
      ∧ (((NewLog.appendAll rs).2.Read o).2 = none ↔ o < rs.length) := by
  obtain ⟨h1, h2⟩ := Log.appendAll_offsets rs NewLog (by simpa [NewLog] using hlen)
  have h1 : (NewLog.appendAll rs).2.recoreds = stamp 0 rs := by
    rw [h1]; rfl
  have h2 : ∀ j, j < rs.length → (NewLog.appendAll rs).1.getD j (0, none) = (j, none) := by
    intro j hj
    rw [h2 j hj]
    simp [NewLog]
  have hl : (NewLog.appendAll rs).2.recoreds.length = rs.length := by
    rw [h1, stamp_length]
  have hu : toUint64 (NewLog.appendAll rs).2.recoreds.length = rs.length := by
    rw [hl]; exact toUint64_of_lt _ hlen
  have hin : o < rs.length → (NewLog.appendAll rs).2.Read o
      = ({ Value := (rs.getD o { Value := [], Offset := 0 }).Value, Offset := o }, none) := by
    intro ho
    unfold Log.Read
    rw [hu, if_neg (by omega), h1, stamp_getD rs 0 o ho, Nat.zero_add]
  have hout : rs.length ≤ o → (NewLog.appendAll rs).2.Read o
      = ({ Value := [], Offset := 0 }, some LogError.ErrOffSetNotFound) := by
    intro ho
    unfold Log.Read
    rw [hu, if_pos ho]
  refine ⟨fun ho => ⟨h2 o ho, hin ho⟩, hout, ?_⟩
  constructor
  · intro h
    by_contra hn
    rw [hout (by omega)] at h
    cases h
  · intro ho
    rw [hin ho]

theorem C20_witness :
    (1 < [({ Value := hello, Offset := 7 } : Record), { Value := hi, Offset := 7 }].length →
        (NewLog.appendAll [{ Value := hello, Offset := 7 }, { Value := hi, Offset := 7 }]).1.getD 1
            (0, none) = (1, none)
          ∧ (NewLog.appendAll [{ Value := hello, Offset := 7 }, { Value := hi, Offset := 7 }]).2.Read 1
              = ({ Value := ([({ Value := hello, Offset := 7 } : Record),
                    { Value := hi, Offset := 7 }].getD 1 { Value := [], Offset := 0 }).Value,
                   Offset := 1 }, none))
      ∧ ([({ Value := hello, Offset := 7 } : Record), { Value := hi, Offset := 7 }].length ≤ 1 →
          (NewLog.appendAll [{ Value := hello, Offset := 7 }, { Value := hi, Offset := 7 }]).2.Read 1
            = ({ Value := [], Offset := 0 }, some LogError.ErrOffSetNotFound))
      ∧ (((NewLog.appendAll [{ Value := hello, Offset := 7 }, { Value := hi, Offset := 7 }]).2.Read
            1).2 = none
          ↔ 1 < [({ Value := hello, Offset := 7 } : Record), { Value := hi, Offset := 7 }].length) :=
  C20_log_append_read [{ Value := hello, Offset := 7 }, { Value := hi, Offset := 7 }] 1
    (by decide)

end CommitLog
